import Mathlib

/-!
Verification of the `juswaldy/scrap` repository utilities.

Shallow embedding of the Python sources in Lean 4, one namespace per module:

* `ZstdTextfs`   — `src/04-textfs/zstd_textfs/core.py` (base64 name codec and
  directory compress/decompress walkers);
* `TanakhSplitter` — `src/05-audio/tanakh_splitter/tanakh_splitter.py`
  (boundary-selection DP and segment construction);
* `SqlSecurity`  — `src/06-db/script/permissions/sqlserver_security_suite_xlsx.py`
  (permission-sheet loader and DENY/GRANT conflict detection);
* `Csv2Xlsx`     — `src/07-converters/csv2xlsx.py` (reservoir sampling and
  streaming XLSX writer);
* `Anon`         — `src/01-anon/anon.py` (dataframe pseudonymizer).

Python `bytes` are embedded as `List ℕ` with values understood to be `< 256`,
Python `float` as `ℚ` (exact arithmetic), Python `str` as Lean `String` or
`List Char`, and fallible code as `Option`/`Except`.
-/

namespace ZstdTextfs

/-- The URL-safe Base-64 alphabet used by `base64.urlsafe_b64encode`:
`A`–`Z`, `a`–`z`, `0`–`9`, `-`, `_`. -/
def urlsafeAlphabet : List Char :=
  "ABCDEFGHIJKLMNOPQRSTUVWXYZabcdefghijklmnopqrstuvwxyz0123456789-_".toList

/-- Character for a 6-bit group (index into the URL-safe alphabet). -/
def sextetChar (s : ℕ) : Char := urlsafeAlphabet.getD s '?'

/-- Index of a character in the URL-safe alphabet (`64` when absent),
the inverse of `sextetChar`. -/
def charSextet (c : Char) : ℕ := urlsafeAlphabet.indexOf c

/-- Core of `base64.urlsafe_b64encode`: bytes are consumed in groups of
three and emitted as four alphabet characters; a final group of one or two
bytes is padded with `=`. -/
def encodeGroups : List ℕ → List Char
  | [] => []
  | [a] => [sextetChar (a / 4), sextetChar (a % 4 * 16), '=', '=']
  | [a, b] => [sextetChar (a / 4), sextetChar (a % 4 * 16 + b / 16),
               sextetChar (b % 16 * 4), '=']
  | a :: b :: c :: rest =>
      sextetChar (a / 4) :: sextetChar (a % 4 * 16 + b / 16) ::
      sextetChar (b % 16 * 4 + c / 64) :: sextetChar (c % 64) ::
      encodeGroups rest

/-- Core of `base64.urlsafe_b64decode` on an input whose length is a
multiple of four: four characters produce three bytes, with a final quantum
carrying one or two `=` padding characters producing one or two bytes.
`none` models the `binascii.Error` raised on malformed padding. -/
def decodeGroups : List Char → Option (List ℕ)
  | [] => some []
  | c1 :: c2 :: c3 :: c4 :: rest =>
      let s1 := charSextet c1
      let s2 := charSextet c2
      let s3 := charSextet c3
      let s4 := charSextet c4
      if c3 = '=' then
        if c4 = '=' ∧ rest = [] then some [s1 * 4 + s2 / 16] else none
      else if c4 = '=' then
        if rest = [] then some [s1 * 4 + s2 / 16, s2 % 16 * 16 + s3 / 4]
        else none
      else do
        let bs ← decodeGroups rest
        some ((s1 * 4 + s2 / 16) :: (s2 % 16 * 16 + s3 / 4) ::
              (s3 % 4 * 64 + s4) :: bs)
  | _ => none

/-- Remove the trailing run of `=` characters (`str.rstrip("=")`). -/
def rstripEq (l : List Char) : List Char :=
  (l.reverse.dropWhile (fun c => c = '=')).reverse

/-- `_b64_encode`: URL-safe Base-64 encoding with the `=` padding stripped. -/
def b64_encode (data : List ℕ) : List Char :=
  rstripEq (encodeGroups data)

/-- `_b64_decode`: restore the `=` padding so that the length is divisible
by four, then decode.  `base64.b64decode` (with `validate=False`, the
default) first discards characters outside the alphabet-plus-padding set. -/
def b64_decode (data : List Char) : Option (List ℕ) :=
  let padded := data ++ List.replicate ((4 - data.length % 4) % 4) '='
  decodeGroups (padded.filter (fun c => c ∈ urlsafeAlphabet ∨ c = '='))

/-- The unpadded Base-64 encoding, i.e. `encodeGroups` with the trailing
`=` characters omitted; used to characterise `b64_encode`. -/
def encNoPad : List ℕ → List Char
  | [] => []
  | [a] => [sextetChar (a / 4), sextetChar (a % 4 * 16)]
  | [a, b] => [sextetChar (a / 4), sextetChar (a % 4 * 16 + b / 16),
               sextetChar (b % 16 * 4)]
  | a :: b :: c :: rest =>
      sextetChar (a / 4) :: sextetChar (a % 4 * 16 + b / 16) ::
      sextetChar (b % 16 * 4 + c / 64) :: sextetChar (c % 64) ::
      encNoPad rest

theorem sextetChar_mem {s : ℕ} (hs : s < 64) : sextetChar s ∈ urlsafeAlphabet :=
  (by decide : ∀ t : Fin 64, sextetChar t.val ∈ urlsafeAlphabet) ⟨s, hs⟩

theorem charSextet_sextetChar {s : ℕ} (hs : s < 64) : charSextet (sextetChar s) = s :=
  (by decide : ∀ t : Fin 64, charSextet (sextetChar t.val) = t.val) ⟨s, hs⟩

theorem eq_not_mem_alphabet : '=' ∉ urlsafeAlphabet := by decide

theorem sextetChar_ne_eq (s : ℕ) : sextetChar s ≠ '=' := by
  by_cases hs : s < 64
  · intro h
    exact eq_not_mem_alphabet (h ▸ sextetChar_mem hs)
  · unfold sextetChar
    rw [List.getD_eq_default]
    · decide
    · simpa [urlsafeAlphabet] using Nat.le_of_not_lt hs

theorem rstripEq_append {xs ys : List Char} (h : ∀ c ∈ xs, c ≠ '=') :
    rstripEq (xs ++ ys) = xs ++ rstripEq ys := by
  unfold rstripEq
  rw [List.reverse_append, List.dropWhile_append]
  by_cases hy : (ys.reverse.dropWhile (fun c => c = '=')).isEmpty
  · simp only [hy, if_pos]
    rw [List.isEmpty_iff] at hy
    rw [hy]
    cases hx : xs.reverse with
    | nil =>
        simp at hx
        simp [hx]
    | cons a l =>
        have ha : a ∈ xs := by
          have : a ∈ xs.reverse := by rw [hx]; exact List.mem_cons_self a l
          simpa using this
        rw [List.dropWhile_cons, if_neg (by simpa using h a ha), ← hx]
        simp
  · simp only [hy, if_neg]
    simp

theorem rstripEq_of_no_eq {xs : List Char} (h : ∀ c ∈ xs, c ≠ '=') :
    rstripEq xs = xs := by
  have := @rstripEq_append xs [] h
  simpa [rstripEq] using this

theorem encNoPad_chars {data : List ℕ} (h : ∀ x ∈ data, x < 256) :
    ∀ c ∈ encNoPad data, c ∈ urlsafeAlphabet := by
  induction data using encNoPad.induct with
  | case1 => simp [encNoPad]
  | case2 a =>
      have ha : a < 256 := h a (by simp)
      simp only [encNoPad, List.mem_cons]
      rintro c (rfl | rfl | hc)
      · exact sextetChar_mem (by omega)
      · exact sextetChar_mem (by omega)
      · simp at hc
  | case3 a b =>
      have ha : a < 256 := h a (by simp)
      have hb : b < 256 := h b (by simp)
      simp only [encNoPad, List.mem_cons]
      rintro c (rfl | rfl | rfl | hc)
      · exact sextetChar_mem (by omega)
      · exact sextetChar_mem (by omega)
      · exact sextetChar_mem (by omega)
      · simp at hc
  | case4 a b cc rest ih =>
      have ha : a < 256 := h a (by simp)
      have hb : b < 256 := h b (by simp)
      have hc' : cc < 256 := h cc (by simp)
      have hrest : ∀ x ∈ rest, x < 256 := fun x hx => h x (by simp [hx])
      simp only [encNoPad, List.mem_cons]
      rintro c (rfl | rfl | rfl | rfl | hc)
      · exact sextetChar_mem (by omega)
      · exact sextetChar_mem (by omega)
      · exact sextetChar_mem (by omega)
      · exact sextetChar_mem (by omega)
      · exact ih hrest c hc

theorem rstripEq_encodeGroups (data : List ℕ) :
    rstripEq (encodeGroups data) = encNoPad data := by
  induction data using encodeGroups.induct with
  | case1 => simp [encodeGroups, encNoPad, rstripEq]
  | case2 a =>
      show rstripEq ([sextetChar (a / 4), sextetChar (a % 4 * 16)] ++ ['=', '=']) = _
      rw [rstripEq_append]
      · simp [encNoPad, rstripEq]
      · simp only [List.mem_cons, List.not_mem_nil]
        rintro c (rfl | rfl | hc)
        · exact sextetChar_ne_eq _
        · exact sextetChar_ne_eq _
        · simp at hc
  | case3 a b =>
      show rstripEq ([sextetChar (a / 4), sextetChar (a % 4 * 16 + b / 16),
          sextetChar (b % 16 * 4)] ++ ['=']) = _
      rw [rstripEq_append]
      · simp [encNoPad, rstripEq]
      · simp only [List.mem_cons, List.not_mem_nil]
        rintro c (rfl | rfl | rfl | hc)
        · exact sextetChar_ne_eq _
        · exact sextetChar_ne_eq _
        · exact sextetChar_ne_eq _
        · simp at hc
  | case4 a b cc rest ih =>
      show rstripEq ([sextetChar (a / 4), sextetChar (a % 4 * 16 + b / 16),
          sextetChar (b % 16 * 4 + cc / 64), sextetChar (cc % 64)] ++
          encodeGroups rest) = _
      rw [rstripEq_append]
      · rw [ih]; rfl
      · simp only [List.mem_cons, List.not_mem_nil]
        rintro c (rfl | rfl | rfl | rfl | hc)
        · exact sextetChar_ne_eq _
        · exact sextetChar_ne_eq _
        · exact sextetChar_ne_eq _
        · exact sextetChar_ne_eq _
        · simp at hc

theorem encNoPad_pad_restore (data : List ℕ) :
    encNoPad data ++
      List.replicate ((4 - (encNoPad data).length % 4) % 4) '=' =
    encodeGroups data := by
  induction data using encodeGroups.induct with
  | case1 => rfl
  | case2 a => rfl
  | case3 a b => rfl
  | case4 a b cc rest ih =>
      show (_ :: _ :: _ :: _ :: encNoPad rest) ++
        List.replicate ((4 - (_ :: _ :: _ :: _ :: encNoPad rest).length % 4) % 4) '=' = _
      have hlen : (sextetChar (a / 4) :: sextetChar (a % 4 * 16 + b / 16) ::
          sextetChar (b % 16 * 4 + cc / 64) :: sextetChar (cc % 64) ::
          encNoPad rest).length % 4 = (encNoPad rest).length % 4 := by
        simp [List.length_cons]
        omega
      rw [hlen]
      simp only [List.cons_append]
      rw [ih]
      rfl

theorem encodeGroups_chars {data : List ℕ} (h : ∀ x ∈ data, x < 256) :
    ∀ c ∈ encodeGroups data, c ∈ urlsafeAlphabet ∨ c = '=' := by
  induction data using encodeGroups.induct with
  | case1 => simp [encodeGroups]
  | case2 a =>
      have ha : a < 256 := h a (by simp)
      simp only [encodeGroups, List.mem_cons]
      rintro c (rfl | rfl | rfl | rfl | hc)
      · exact Or.inl (sextetChar_mem (by omega))
      · exact Or.inl (sextetChar_mem (by omega))
      · exact Or.inr rfl
      · exact Or.inr rfl
      · simp at hc
  | case3 a b =>
      have ha : a < 256 := h a (by simp)
      have hb : b < 256 := h b (by simp)
      simp only [encodeGroups, List.mem_cons]
      rintro c (rfl | rfl | rfl | rfl | hc)
      · exact Or.inl (sextetChar_mem (by omega))
      · exact Or.inl (sextetChar_mem (by omega))
      · exact Or.inl (sextetChar_mem (by omega))
      · exact Or.inr rfl
      · simp at hc
  | case4 a b cc rest ih =>
      have ha : a < 256 := h a (by simp)
      have hb : b < 256 := h b (by simp)
      have hc' : cc < 256 := h cc (by simp)
      have hrest : ∀ x ∈ rest, x < 256 := fun x hx => h x (by simp [hx])
      simp only [encodeGroups, List.mem_cons]
      rintro c (rfl | rfl | rfl | rfl | hc)
      · exact Or.inl (sextetChar_mem (by omega))
      · exact Or.inl (sextetChar_mem (by omega))
      · exact Or.inl (sextetChar_mem (by omega))
      · exact Or.inl (sextetChar_mem (by omega))
      · exact ih hrest c hc

theorem decodeGroups_encodeGroups {data : List ℕ} (h : ∀ x ∈ data, x < 256) :
    decodeGroups (encodeGroups data) = some data := by
  induction data using encodeGroups.induct with
  | case1 => rfl
  | case2 a =>
      have ha : a < 256 := h a (by simp)
      show decodeGroups [sextetChar (a / 4), sextetChar (a % 4 * 16), '=', '='] = _
      rw [decodeGroups]
      rw [if_pos rfl, if_pos ⟨rfl, rfl⟩]
      rw [charSextet_sextetChar (by omega), charSextet_sextetChar (by omega)]
      congr 1
      congr 1
      omega
  | case3 a b =>
      have ha : a < 256 := h a (by simp)
      have hb : b < 256 := h b (by simp)
      rw [encodeGroups, decodeGroups]
      rw [if_neg (sextetChar_ne_eq _), if_pos rfl, if_pos rfl]
      rw [charSextet_sextetChar (by omega), charSextet_sextetChar (by omega),
        charSextet_sextetChar (by omega)]
      congr 1
      congr 1
      · omega
      congr 1
      omega
  | case4 a b cc rest ih =>
      have ha : a < 256 := h a (by simp)
      have hb : b < 256 := h b (by simp)
      have hc' : cc < 256 := h cc (by simp)
      have hrest : ∀ x ∈ rest, x < 256 := fun x hx => h x (by simp [hx])
      rw [encodeGroups, decodeGroups]
      rw [if_neg (sextetChar_ne_eq _), if_neg (sextetChar_ne_eq _)]
      rw [charSextet_sextetChar (by omega), charSextet_sextetChar (by omega),
        charSextet_sextetChar (by omega), charSextet_sextetChar (by omega)]
      rw [ih hrest]
      show some _ = _
      congr 1
      congr 1
      · omega
      congr 1
      · omega
      congr 1
      omega

/-- Roundtrip of the folder codec's Base-64 layer: decoding an encoded byte
string restores it exactly. -/
theorem b64_decode_b64_encode {data : List ℕ} (h : ∀ x ∈ data, x < 256) :
    b64_decode (b64_encode data) = some data := by
  unfold b64_decode b64_encode
  rw [rstripEq_encodeGroups]
  rw [encNoPad_pad_restore]
  show decodeGroups (List.filter _ (encodeGroups data)) = some data
  rw [List.filter_eq_self.mpr]
  · exact decodeGroups_encodeGroups h
  · intro c hc
    rcases encodeGroups_chars h c hc with hm | hm
    · simp [hm]
    · simp [hm]

/-- UTF-8 encoding of one Unicode code point (`str.encode("utf-8")`,
applied point-wise). -/
def utf8EncodeChar (c : ℕ) : List ℕ :=
  if c < 0x80 then [c]
  else if c < 0x800 then [0xC0 + c / 64, 0x80 + c % 64]
  else if c < 0x10000 then
    [0xE0 + c / 4096, 0x80 + c / 64 % 64, 0x80 + c % 64]
  else
    [0xF0 + c / 262144, 0x80 + c / 4096 % 64, 0x80 + c / 64 % 64, 0x80 + c % 64]

/-- UTF-8 encoding of a sequence of code points. -/
def utf8Encode (cps : List ℕ) : List ℕ :=
  cps.flatMap utf8EncodeChar

/-- Whether a byte is a UTF-8 continuation byte (`10xxxxxx`). -/
def isCont (b : ℕ) : Prop := 0x80 ≤ b ∧ b < 0xC0

instance (b : ℕ) : Decidable (isCont b) := by unfold isCont; infer_instance

/-- Number of bytes of the UTF-8 sequence introduced by a lead byte
(`0` for an invalid lead byte). -/
def seqLen (b : ℕ) : ℕ :=
  if b < 0x80 then 1
  else if b < 0xC0 then 0
  else if b < 0xE0 then 2
  else if b < 0xF0 then 3
  else if b < 0xF8 then 4
  else 0

/-- Payload bits of a UTF-8 lead byte of a sequence of `n` bytes. -/
def leadVal (b n : ℕ) : ℕ :=
  if n = 1 then b
  else if n = 2 then b - 0xC0
  else if n = 3 then b - 0xE0
  else b - 0xF0

/-- Assemble a code point from the lead-byte payload and the continuation
bytes. -/
def assembleCp (v : ℕ) (conts : List ℕ) : ℕ :=
  conts.foldl (fun acc x => acc * 64 + (x - 0x80)) v

/-- Well-formedness of a decoded code point for a sequence of `n` bytes:
rejects overlong encodings, surrogates and out-of-range values, as
Python's strict UTF-8 decoder does. -/
def validCp (n cp : ℕ) : Prop :=
  if n = 1 then True
  else if n = 2 then 0x80 ≤ cp
  else if n = 3 then 0x800 ≤ cp ∧ ¬(0xD800 ≤ cp ∧ cp < 0xE000)
  else 0x10000 ≤ cp ∧ cp < 0x110000

instance (n cp : ℕ) : Decidable (validCp n cp) := by unfold validCp; infer_instance

/-- Strict UTF-8 decoding (`bytes.decode("utf-8")`); `none` models the
`UnicodeDecodeError` raised on malformed input. -/
def utf8Decode : List ℕ → Option (List ℕ)
  | [] => some []
  | b :: rest =>
      let n := seqLen b
      if n = 0 then none
      else
        let conts := rest.take (n - 1)
        if conts.length = n - 1 ∧ ∀ x ∈ conts, isCont x then
          let cp := assembleCp (leadVal b n) conts
          if validCp n cp then
            (utf8Decode (rest.drop (n - 1))).map (fun cs => cp :: cs)
          else none
        else none
termination_by l => l.length
decreasing_by
  simp only [List.length_cons, List.length_drop]
  omega

/-- The code points of a Lean string; every `Char` is a Unicode scalar
value, hence a valid input to `utf8EncodeChar`. -/
def codepoints (s : String) : List ℕ := s.toList.map Char.toNat

/-- `_encode_name`: UTF-8 encode the name, compress it, Base-64 encode the
result.  The compression backend is a parameter (`compression.zstd`, the
`zstandard` package, or `libzstd` via ctypes, depending on availability). -/
def encode_name (compress : List ℕ → ℕ → List ℕ) (name : String) (level : ℕ) :
    List Char :=
  b64_encode (compress (utf8Encode (codepoints name)) level)

/-- `_decode_name`: Base-64 decode, decompress, UTF-8 decode.  Returns the
code points of the original name. -/
def decode_name (decompress : List ℕ → List ℕ) (name : List Char) :
    Option (List ℕ) := do
  let compressed ← b64_decode name
  utf8Decode (decompress compressed)

theorem utf8Decode_encodeChar_append {c : ℕ} (h1 : c < 0x110000)
    (h2 : ¬(0xD800 ≤ c ∧ c < 0xE000)) (rest : List ℕ) :
    utf8Decode (utf8EncodeChar c ++ rest) =
      (utf8Decode rest).map (fun cs => c :: cs) := by
  unfold utf8EncodeChar
  by_cases hc1 : c < 0x80
  · rw [if_pos hc1]
    show utf8Decode (c :: rest) = _
    rw [utf8Decode]
    have hn : seqLen c = 1 := by unfold seqLen; rw [if_pos hc1]
    simp only [hn]
    rw [if_neg (by norm_num)]
    simp only [Nat.sub_self, List.take_zero, List.drop_zero]
    rw [if_pos ⟨rfl, by intro x hx; simp at hx⟩]
    rw [if_pos (by unfold validCp; rw [if_pos rfl]; trivial)]
    have hcp : assembleCp (leadVal c 1) [] = c := by
      unfold assembleCp leadVal
      rw [if_pos rfl]
      rfl
    rw [hcp]
  · rw [if_neg hc1]
    by_cases hc2 : c < 0x800
    · rw [if_pos hc2]
      show utf8Decode ((0xC0 + c / 64) :: (0x80 + c % 64) :: rest) = _
      rw [utf8Decode]
      have hn : seqLen (0xC0 + c / 64) = 2 := by
        unfold seqLen
        rw [if_neg (by omega), if_neg (by omega), if_pos (by omega)]
      simp only [hn]
      rw [if_neg (by norm_num)]
      simp only [Nat.add_sub_cancel, List.take_succ_cons, List.take_zero,
        List.drop_succ_cons, List.drop_zero]
      rw [if_pos ⟨rfl, by
        intro x hx
        simp only [List.mem_singleton] at hx
        subst hx
        exact ⟨by omega, by omega⟩⟩]
      have hcp : assembleCp (leadVal (0xC0 + c / 64) 2) [0x80 + c % 64] = c := by
        unfold assembleCp leadVal
        rw [if_neg (by norm_num), if_pos rfl]
        simp only [List.foldl_cons, List.foldl_nil]
        omega
      rw [hcp]
      rw [if_pos (by unfold validCp; rw [if_neg (by norm_num), if_pos rfl]; omega)]
    · rw [if_neg hc2]
      by_cases hc3 : c < 0x10000
      · rw [if_pos hc3]
        show utf8Decode ((0xE0 + c / 4096) :: (0x80 + c / 64 % 64) ::
          (0x80 + c % 64) :: rest) = _
        rw [utf8Decode]
        have hn : seqLen (0xE0 + c / 4096) = 3 := by
          unfold seqLen
          rw [if_neg (by omega), if_neg (by omega), if_neg (by omega),
            if_pos (by omega)]
        simp only [hn]
        rw [if_neg (by norm_num)]
        show (if _ ∧ _ then _ else none) = _
        simp only [List.take_succ_cons, List.take_zero, List.drop_succ_cons,
          List.drop_zero]
        rw [if_pos ⟨rfl, by
          intro x hx
          simp only [List.mem_cons, List.mem_singleton, List.not_mem_nil,
            or_false] at hx
          rcases hx with rfl | rfl
          · exact ⟨by omega, by omega⟩
          · exact ⟨by omega, by omega⟩⟩]
        have hcp : assembleCp (leadVal (0xE0 + c / 4096) 3)
            [0x80 + c / 64 % 64, 0x80 + c % 64] = c := by
          unfold assembleCp leadVal
          rw [if_neg (by norm_num), if_neg (by norm_num), if_pos rfl]
          simp only [List.foldl_cons, List.foldl_nil]
          omega
        rw [hcp]
        rw [if_pos (by
          unfold validCp
          rw [if_neg (by norm_num), if_neg (by norm_num), if_pos rfl]
          exact ⟨by omega, h2⟩)]
      · rw [if_neg hc3]
        show utf8Decode ((0xF0 + c / 262144) :: (0x80 + c / 4096 % 64) ::
          (0x80 + c / 64 % 64) :: (0x80 + c % 64) :: rest) = _
        rw [utf8Decode]
        have hn : seqLen (0xF0 + c / 262144) = 4 := by
          unfold seqLen
          rw [if_neg (by omega), if_neg (by omega), if_neg (by omega),
            if_neg (by omega), if_pos (by omega)]
        simp only [hn]
        rw [if_neg (by norm_num)]
        show (if _ ∧ _ then _ else none) = _
        simp only [List.take_succ_cons, List.take_zero, List.drop_succ_cons,
          List.drop_zero]
        rw [if_pos ⟨rfl, by
          intro x hx
          simp only [List.mem_cons, List.mem_singleton, List.not_mem_nil,
            or_false] at hx
          rcases hx with rfl | rfl | rfl
          · exact ⟨by omega, by omega⟩
          · exact ⟨by omega, by omega⟩
          · exact ⟨by omega, by omega⟩⟩]
        have hcp : assembleCp (leadVal (0xF0 + c / 262144) 4)
            [0x80 + c / 4096 % 64, 0x80 + c / 64 % 64, 0x80 + c % 64] = c := by
          unfold assembleCp leadVal
          rw [if_neg (by norm_num), if_neg (by norm_num), if_neg (by norm_num)]
          simp only [List.foldl_cons, List.foldl_nil]
          omega
        rw [hcp]
        rw [if_pos (by
          unfold validCp
          rw [if_neg (by norm_num), if_neg (by norm_num), if_neg (by norm_num)]
          exact ⟨by omega, h1⟩)]

theorem utf8Decode_utf8Encode {cps : List ℕ}
    (h : ∀ c ∈ cps, c < 0x110000 ∧ ¬(0xD800 ≤ c ∧ c < 0xE000)) :
    utf8Decode (utf8Encode cps) = some cps := by
  induction cps with
  | nil =>
      show utf8Decode [] = some []
      rw [utf8Decode]
  | cons c rest ih =>
      have hc := h c (by simp)
      have hrest : ∀ x ∈ rest, x < 0x110000 ∧ ¬(0xD800 ≤ x ∧ x < 0xE000) :=
        fun x hx => h x (by simp [hx])
      show utf8Decode (utf8EncodeChar c ++ utf8Encode rest) = _
      rw [utf8Decode_encodeChar_append hc.1 hc.2, ih hrest]
      rfl

theorem codepoints_valid (s : String) :
    ∀ c ∈ codepoints s, c < 0x110000 ∧ ¬(0xD800 ≤ c ∧ c < 0xE000) := by
  intro c hc
  simp only [codepoints, List.mem_map] at hc
  obtain ⟨ch, _, rfl⟩ := hc
  have hval : ch.toNat = ch.val.toNat := rfl
  rcases ch.valid with h | h
  · rw [hval]; refine ⟨by omega, by omega⟩
  · rw [hval]; refine ⟨by omega, by omega⟩

theorem b64_encode_chars {data : List ℕ} (h : ∀ x ∈ data, x < 256) :
    ∀ c ∈ b64_encode data, c ∈ urlsafeAlphabet ∧ c ≠ '=' := by
  intro c hc
  rw [b64_encode, rstripEq_encodeGroups] at hc
  have hm := encNoPad_chars h c hc
  exact ⟨hm, fun heq => eq_not_mem_alphabet (heq ▸ hm)⟩

/-- A concrete compression backend used to instantiate the abstract codec:
unary encoding over the byte alphabet `{0, 1}`. -/
def unaryCompress (d : List ℕ) (_level : ℕ) : List ℕ :=
  d.flatMap (fun n => List.replicate n 1 ++ [0])

def unaryDecompressAux : List ℕ → ℕ → List ℕ
  | [], _ => []
  | b :: rest, acc =>
      if b = 0 then acc :: unaryDecompressAux rest 0
      else unaryDecompressAux rest (acc + 1)

def unaryDecompress (l : List ℕ) : List ℕ := unaryDecompressAux l 0

theorem unaryDecompressAux_replicate (n : ℕ) (rest : List ℕ) (acc : ℕ) :
    unaryDecompressAux (List.replicate n 1 ++ 0 :: rest) acc =
      (acc + n) :: unaryDecompressAux rest 0 := by
  induction n generalizing acc with
  | zero => simp [unaryDecompressAux]
  | succ k ih =>
      rw [List.replicate_succ, List.cons_append, unaryDecompressAux,
        if_neg (by norm_num), ih]
      congr 1
      omega

theorem unaryDecompress_unaryCompress (d : List ℕ) (level : ℕ) :
    unaryDecompress (unaryCompress d level) = d := by
  unfold unaryDecompress unaryCompress
  induction d with
  | nil => rfl
  | cons n rest ih =>
      rw [List.flatMap_cons, List.append_assoc, List.singleton_append,
        unaryDecompressAux_replicate]
      rw [ih]
      congr 1
      omega

theorem unaryCompress_bytes (d : List ℕ) (level : ℕ) :
    ∀ b ∈ unaryCompress d level, b < 256 := by
  intro b hb
  unfold unaryCompress at hb
  simp only [List.mem_flatMap, List.mem_append, List.mem_replicate,
    List.mem_singleton] at hb
  obtain ⟨n, _, h | h⟩ := hb
  · omega
  · omega

/-- C1: in the Zstandard folder codec, `_b64_decode` is a left inverse of
`_b64_encode` on byte strings, and consequently `_decode_name` recovers the
original name (as its code-point sequence) from `_encode_name`, for any
compression backend whose `decompress_bytes` is a left inverse of
`compress_bytes` and produces byte-valued output. -/
theorem C1_codec_roundtrip
    (compress : List ℕ → ℕ → List ℕ) (decompress : List ℕ → List ℕ)
    (hinv : ∀ d level, decompress (compress d level) = d)
    (hbytes : ∀ d level, ∀ b ∈ compress d level, b < 256) :
    (∀ data : List ℕ, (∀ b ∈ data, b < 256) →
        b64_decode (b64_encode data) = some data) ∧
    (∀ (name : String) (level : ℕ),
        decode_name decompress (encode_name compress name level) =
          some (codepoints name)) := by
  constructor
  · intro data h
    exact b64_decode_b64_encode h
  · intro name level
    unfold decode_name encode_name
    rw [b64_decode_b64_encode (hbytes _ _)]
    show utf8Decode (decompress (compress (utf8Encode (codepoints name)) level)) = _
    rw [hinv]
    exact utf8Decode_utf8Encode (codepoints_valid name)

theorem C1_codec_roundtrip_witness :
    (∀ data : List ℕ, (∀ b ∈ data, b < 256) →
        b64_decode (b64_encode data) = some data) ∧
    (∀ (name : String) (level : ℕ),
        decode_name unaryDecompress (encode_name unaryCompress name level) =
          some (codepoints name)) :=
  C1_codec_roundtrip unaryCompress unaryDecompress
    unaryDecompress_unaryCompress unaryCompress_bytes

/-! ### Filesystem model for `compress_folder` / `decompress_folder`

A path is the list of its components relative to the filesystem root; the
filesystem is an association list from paths to entries, with the first
binding for a path the visible one.  The source directory's contents (what
`os.walk` traverses) are given as a finite tree. -/

abbrev Path := List String

inductive Entry where
  | dir : Entry
  | file : List ℕ → Entry
deriving DecidableEq

abbrev FS := List (Path × Entry)

/-- Visible entry at a path. -/
def lookupFS (fs : FS) (p : Path) : Option Entry :=
  (fs.find? (fun e => e.1 = p)).map (·.2)

/-- `shutil.rmtree`: remove the subtree rooted at `p`. -/
def rmtreeFS (fs : FS) (p : Path) : FS :=
  fs.filter (fun e => !decide (p <+: e.1))

/-- Create a directory at `p` if nothing is there. -/
def mkdirIfAbsent (fs : FS) (p : Path) : FS :=
  if (lookupFS fs p).isSome then fs else (p, Entry.dir) :: fs

/-- `os.makedirs(p, exist_ok=True)`: create every missing ancestor of `p`
and `p` itself. -/
def makedirsFS (fs : FS) (p : Path) : FS :=
  (p.inits.filter (fun q => !q.isEmpty)).foldl mkdirIfAbsent fs

/-- `open(p, "w")` / `open(p, "wb")`: create or overwrite the file at `p`. -/
def writeFS (fs : FS) (p : Path) (content : List ℕ) : FS :=
  (p, Entry.file content) :: fs

/-- A directory tree: named files with contents, and named subtrees. -/
inductive Tree where
  | node : List (String × List ℕ) → List (String × Tree) → Tree

/-- `os.walk`, top-down: the root triple followed by the walks of each
subdirectory.  Each triple is (components relative to the walk root,
subdirectory names, files with contents). -/
def walkTree : Tree → List String →
    List (List String × List String × List (String × List ℕ))
  | .node files subdirs, rel =>
      (rel, subdirs.map (·.1), files) ::
        subdirs.attach.flatMap (fun sd => walkTree sd.1.2 (rel ++ [sd.1.1]))
termination_by t _ => sizeOf t
decreasing_by
  obtain ⟨⟨n, t⟩, hm⟩ := sd
  have hmem := List.sizeOf_lt_of_mem hm
  simp only [Prod.mk.sizeOf_spec] at hmem
  simp only [Tree.node.sizeOf_spec]
  omega

/-- `_encode_name` as a string-to-string map on path components. -/
def encodeNameStr (compress : List ℕ → ℕ → List ℕ) (level : ℕ)
    (name : String) : String :=
  String.mk (encode_name compress name level)

/-- `_decode_name` as a string-to-string map on path components; a name
that fails to decode (where Python raises) is mapped to the empty string. -/
def decodeNameStr (decompress : List ℕ → List ℕ) (name : String) : String :=
  match decode_name decompress name.toList with
  | some cps => String.mk (cps.map Char.ofNat)
  | none => ""

/-- Contents written by `_compress_file`: the Base-64 text of the
compressed bytes, as character codes. -/
def compressFileContent (compress : List ℕ → ℕ → List ℕ) (level : ℕ)
    (data : List ℕ) : List ℕ :=
  (b64_encode (compress data level)).map Char.toNat

/-- Contents written by `_decompress_file`: decode and decompress; on a
decoding failure (where Python raises) the empty content. -/
def decompressFileContent (decompress : List ℕ → List ℕ)
    (data : List ℕ) : List ℕ :=
  match b64_decode (data.map Char.ofNat) with
  | some bs => decompress bs
  | none => []

/-- One `os.walk` iteration of the folder walkers: make the destination
root for the current relative path, create the per-directory entries, then
write the per-file outputs.  `nameT` transforms a path component
(`_encode_name` or `_decode_name`) and `fileT` transforms file contents. -/
def walkStep (nameT : String → String) (fileT : List ℕ → List ℕ) (dst : Path)
    (acc : FS)
    (entry : List String × List String × List (String × List ℕ)) : FS :=
  let dstRoot := dst ++ entry.1.map nameT
  let acc1 := makedirsFS acc dstRoot
  let acc2 := entry.2.1.foldl (fun a d => makedirsFS a (dstRoot ++ [nameT d])) acc1
  entry.2.2.foldl (fun a f => writeFS a (dstRoot ++ [nameT f.1]) (fileT f.2)) acc2

/-- Common shape of `compress_folder` and `decompress_folder`: remove a
pre-existing destination, recreate it, then run `walkStep` over the
`os.walk` traversal of the source tree. -/
def folderRun (nameT : String → String) (fileT : List ℕ → List ℕ)
    (fs : FS) (tree : Tree) (dst : Path) : FS :=
  let fs1 := if (lookupFS fs dst).isSome then rmtreeFS fs dst else fs
  let fs2 := makedirsFS fs1 dst
  (walkTree tree []).foldl (walkStep nameT fileT dst) fs2

/-- `compress_folder(src, dst, level)` on a modeled filesystem whose
subtree at `src` is `tree`. -/
def compress_folder (compress : List ℕ → ℕ → List ℕ) (fs : FS) (tree : Tree)
    (_src dst : Path) (level : ℕ) : FS :=
  folderRun (encodeNameStr compress level) (compressFileContent compress level)
    fs tree dst

/-- `decompress_folder(src, dst)` on a modeled filesystem whose subtree at
`src` is `tree`. -/
def decompress_folder (decompress : List ℕ → List ℕ) (fs : FS) (tree : Tree)
    (_src dst : Path) : FS :=
  folderRun (decodeNameStr decompress) (decompressFileContent decompress)
    fs tree dst


theorem lookupFS_writeFS (fs : FS) (p q : Path) (c : List ℕ) :
    lookupFS (writeFS fs p c) q =
      if q = p then some (Entry.file c) else lookupFS fs q := by
  unfold writeFS lookupFS
  by_cases h : q = p
  · subst h
    rw [List.find?_cons_of_pos _ (by simp), if_pos rfl]
    rfl
  · rw [List.find?_cons_of_neg, if_neg h]
    simp only [decide_eq_true_eq]
    exact fun heq => h heq.symm

theorem lookupFS_mkdirIfAbsent (fs : FS) (p q : Path) :
    lookupFS (mkdirIfAbsent fs p) q =
      if q = p ∧ lookupFS fs p = none then some Entry.dir
      else lookupFS fs q := by
  unfold mkdirIfAbsent
  by_cases hp : (lookupFS fs p).isSome
  · rw [if_pos hp, if_neg]
    rintro ⟨-, hnone⟩
    rw [hnone] at hp
    simp at hp
  · rw [if_neg hp]
    have hnone : lookupFS fs p = none := by
      cases hlk : lookupFS fs p
      · rfl
      · rw [hlk] at hp; simp at hp
    by_cases h : q = p
    · subst h
      rw [if_pos ⟨rfl, hnone⟩]
      unfold lookupFS
      rw [List.find?_cons_of_pos _ (by simp)]
      rfl
    · rw [if_neg (fun hc => h hc.1)]
      unfold lookupFS
      rw [List.find?_cons_of_neg]
      simp only [decide_eq_true_eq]
      exact fun heq => h heq.symm

theorem lookupFS_foldl_mkdirIfAbsent (L : List Path) (fs : FS) (q : Path) :
    lookupFS (L.foldl mkdirIfAbsent fs) q =
      if q ∈ L ∧ lookupFS fs q = none then some Entry.dir
      else lookupFS fs q := by
  induction L generalizing fs with
  | nil => simp
  | cons a L ih =>
      rw [List.foldl_cons, ih]
      by_cases hqa : q = a
      · subst hqa
        by_cases hnone : lookupFS fs q = none <;>
          simp [lookupFS_mkdirIfAbsent, hnone]
      · by_cases hqL : q ∈ L <;> by_cases hnone : lookupFS fs q = none <;>
          simp [lookupFS_mkdirIfAbsent, hqa, hqL, hnone]

theorem lookupFS_makedirsFS (fs : FS) (p q : Path) :
    lookupFS (makedirsFS fs p) q =
      if q ≠ [] ∧ q <+: p ∧ lookupFS fs q = none then some Entry.dir
      else lookupFS fs q := by
  unfold makedirsFS
  rw [lookupFS_foldl_mkdirIfAbsent]
  have hmem : q ∈ p.inits.filter (fun r => !r.isEmpty) ↔ q ≠ [] ∧ q <+: p := by
    rw [List.mem_filter, List.mem_inits]
    simp [List.isEmpty_iff]
    tauto
  by_cases hq : q ≠ [] ∧ q <+: p ∧ lookupFS fs q = none
  · rw [if_pos ⟨hmem.mpr ⟨hq.1, hq.2.1⟩, hq.2.2⟩, if_pos hq]
  · rw [if_neg (fun hc => hq ⟨(hmem.mp hc.1).1, (hmem.mp hc.1).2, hc.2⟩),
      if_neg hq]

theorem lookupFS_rmtreeFS (fs : FS) (p q : Path) :
    lookupFS (rmtreeFS fs p) q =
      if p <+: q then none else lookupFS fs q := by
  induction fs with
  | nil => simp [rmtreeFS, lookupFS]
  | cons e fs ih =>
      unfold rmtreeFS at ih ⊢
      rw [List.filter_cons]
      by_cases hkeep : p <+: e.1
      · rw [if_neg (by simp [hkeep])]
        rw [ih]
        by_cases hpq : p <+: q
        · rw [if_pos hpq, if_pos hpq]
        · rw [if_neg hpq, if_neg hpq]
          unfold lookupFS
          rw [List.find?_cons_of_neg]
          simp only [decide_eq_true_eq]
          intro heq
          exact hpq (heq ▸ hkeep)
      · rw [if_pos (by simp [hkeep])]
        by_cases hq : e.1 = q
        · have hpq : ¬p <+: q := fun hc => hkeep (by rw [hq]; exact hc)
          rw [if_neg hpq]
          unfold lookupFS
          rw [List.find?_cons_of_pos _ (by simp [hq]),
            List.find?_cons_of_pos _ (by simp [hq])]
        · have hrec := ih
          unfold lookupFS at hrec ⊢
          rw [List.find?_cons_of_neg _ (by simp [hq]),
            List.find?_cons_of_neg _ (by simp [hq])]
          exact hrec


/-- Elementary filesystem effects performed by the folder walkers. -/
inductive FsOp where
  | mkdirs : Path → FsOp
  | write : Path → List ℕ → FsOp

def applyOp (fs : FS) : FsOp → FS
  | .mkdirs p => makedirsFS fs p
  | .write p c => writeFS fs p c

def opPath : FsOp → Path
  | .mkdirs p => p
  | .write p _ => p

/-- The effects of one `walkStep`, as a list of elementary operations. -/
def stepOps (nameT : String → String) (fileT : List ℕ → List ℕ) (dst : Path)
    (entry : List String × List String × List (String × List ℕ)) : List FsOp :=
  let dstRoot := dst ++ entry.1.map nameT
  FsOp.mkdirs dstRoot ::
    (entry.2.1.map (fun d => FsOp.mkdirs (dstRoot ++ [nameT d])) ++
     entry.2.2.map (fun f => FsOp.write (dstRoot ++ [nameT f.1]) (fileT f.2)))

theorem walkStep_eq_ops (nameT : String → String) (fileT : List ℕ → List ℕ)
    (dst : Path) (acc : FS)
    (e : List String × List String × List (String × List ℕ)) :
    walkStep nameT fileT dst acc e = (stepOps nameT fileT dst e).foldl applyOp acc := by
  unfold walkStep stepOps
  rw [List.foldl_cons, List.foldl_append, List.foldl_map, List.foldl_map]
  rfl

theorem foldl_flatMap {α β γ : Type} (g : α → List β) (f : γ → β → γ)
    (l : List α) (init : γ) :
    (l.flatMap g).foldl f init = l.foldl (fun acc e => (g e).foldl f acc) init := by
  induction l generalizing init with
  | nil => rfl
  | cons a l ih => rw [List.flatMap_cons, List.foldl_append, List.foldl_cons, ih]

theorem folderRun_eq_ops (nameT : String → String) (fileT : List ℕ → List ℕ)
    (fs : FS) (tree : Tree) (dst : Path) :
    folderRun nameT fileT fs tree dst =
      ((walkTree tree []).flatMap (stepOps nameT fileT dst)).foldl applyOp
        (makedirsFS (if (lookupFS fs dst).isSome then rmtreeFS fs dst else fs) dst) := by
  unfold folderRun
  rw [foldl_flatMap]
  have hstep : walkStep nameT fileT dst =
      fun acc e => (stepOps nameT fileT dst e).foldl applyOp acc := by
    funext acc e
    exact walkStep_eq_ops nameT fileT dst acc e
  rw [hstep]

theorem stepOps_paths (nameT : String → String) (fileT : List ℕ → List ℕ)
    (dst : Path) (e : List String × List String × List (String × List ℕ)) :
    ∀ op ∈ stepOps nameT fileT dst e, dst <+: opPath op := by
  intro op hop
  unfold stepOps at hop
  simp only [List.mem_cons, List.mem_append, List.mem_map] at hop
  rcases hop with rfl | ⟨d, -, rfl⟩ | ⟨f, -, rfl⟩
  · exact List.prefix_append dst _
  · show dst <+: (dst ++ _) ++ _
    rw [List.append_assoc]
    exact List.prefix_append dst _
  · show dst <+: (dst ++ _) ++ _
    rw [List.append_assoc]
    exact List.prefix_append dst _

/-- All proper ancestors of `dst` (and `dst` itself) are present. -/
def prefixesPresent (fs : FS) (dst : Path) : Prop :=
  ∀ r, r <+: dst → r ≠ [] → (lookupFS fs r).isSome

theorem applyOp_lookup_mono {fs : FS} {q : Path} (op : FsOp)
    (h : (lookupFS fs q).isSome) : (lookupFS (applyOp fs op) q).isSome := by
  cases op with
  | mkdirs p =>
      show (lookupFS (makedirsFS fs p) q).isSome
      rw [lookupFS_makedirsFS]
      split
      · simp
      · exact h
  | write p c =>
      show (lookupFS (writeFS fs p c) q).isSome
      rw [lookupFS_writeFS]
      split
      · simp
      · exact h

theorem prefixesPresent_applyOp {fs : FS} {dst : Path} (op : FsOp)
    (h : prefixesPresent fs dst) : prefixesPresent (applyOp fs op) dst :=
  fun r hr hne => applyOp_lookup_mono op (h r hr hne)

theorem prefixesPresent_makedirsFS (fs : FS) (p : Path) :
    prefixesPresent (makedirsFS fs p) p := by
  intro r hr hne
  rw [lookupFS_makedirsFS]
  by_cases hnone : lookupFS fs r = none
  · rw [if_pos ⟨hne, hr, hnone⟩]
    simp
  · rw [if_neg (fun hc => hnone hc.2.2)]
    cases hlk : lookupFS fs r
    · exact absurd hlk hnone
    · simp

theorem applyOp_frame {fs : FS} {dst q : Path} (op : FsOp)
    (hop : dst <+: opPath op) (hP : prefixesPresent fs dst)
    (hq : ¬dst <+: q) :
    lookupFS (applyOp fs op) q = lookupFS fs q := by
  cases op with
  | mkdirs p =>
      show lookupFS (makedirsFS fs p) q = _
      rw [lookupFS_makedirsFS, if_neg]
      rintro ⟨hne, hpre, hnone⟩
      rcases List.prefix_or_prefix_of_prefix hpre hop with hqd | hdq
      · have := hP q hqd hne
        rw [hnone] at this
        simp at this
      · exact hq hdq
  | write p c =>
      show lookupFS (writeFS fs p c) q = _
      rw [lookupFS_writeFS, if_neg]
      rintro rfl
      exact hq hop

theorem foldl_applyOp_frame {dst : Path} (ops : List FsOp) (fs : FS) (q : Path)
    (hops : ∀ op ∈ ops, dst <+: opPath op)
    (hP : prefixesPresent fs dst) (hq : ¬dst <+: q) :
    lookupFS (ops.foldl applyOp fs) q = lookupFS fs q := by
  induction ops generalizing fs with
  | nil => rfl
  | cons op ops ih =>
      rw [List.foldl_cons]
      rw [ih (applyOp fs op) (fun o ho => hops o (List.mem_cons_of_mem op ho))
        (prefixesPresent_applyOp op hP)]
      exact applyOp_frame op (hops op (List.mem_cons_self op ops)) hP hq

theorem applyOp_under {fsA fsB : FS} {dst : Path} (op : FsOp)
    (hAB : ∀ r, dst <+: r → lookupFS fsA r = lookupFS fsB r) :
    ∀ r, dst <+: r → lookupFS (applyOp fsA op) r = lookupFS (applyOp fsB op) r := by
  intro r hr
  cases op with
  | mkdirs p =>
      show lookupFS (makedirsFS fsA p) r = lookupFS (makedirsFS fsB p) r
      rw [lookupFS_makedirsFS, lookupFS_makedirsFS, hAB r hr]
  | write p c =>
      show lookupFS (writeFS fsA p c) r = lookupFS (writeFS fsB p c) r
      rw [lookupFS_writeFS, lookupFS_writeFS, hAB r hr]

theorem foldl_applyOp_under {dst : Path} (ops : List FsOp) (fsA fsB : FS)
    (hAB : ∀ r, dst <+: r → lookupFS fsA r = lookupFS fsB r) :
    ∀ r, dst <+: r →
      lookupFS (ops.foldl applyOp fsA) r = lookupFS (ops.foldl applyOp fsB) r := by
  induction ops generalizing fsA fsB with
  | nil => exact hAB
  | cons op ops ih =>
      intro r hr
      rw [List.foldl_cons, List.foldl_cons]
      exact ih (applyOp fsA op) (applyOp fsB op) (applyOp_under op hAB) r hr

/-- Master frame property of the walkers: outside the destination subtree
nothing changes (given that the destination's proper ancestors exist), and
inside the destination subtree the result does not depend on the prior
filesystem (given that nothing dangles below a missing destination). -/
theorem folderRun_frame (nameT : String → String) (fileT : List ℕ → List ℕ)
    (fs : FS) (tree : Tree) (dst : Path)
    (hanc : ∀ r, r <+: dst → r ≠ dst → r ≠ [] → (lookupFS fs r).isSome)
    (hclosed : lookupFS fs dst = none → ∀ q, dst <+: q → lookupFS fs q = none) :
    (∀ q, ¬dst <+: q → lookupFS (folderRun nameT fileT fs tree dst) q = lookupFS fs q) ∧
    (∀ q, dst <+: q → lookupFS (folderRun nameT fileT fs tree dst) q =
        lookupFS (folderRun nameT fileT [] tree dst) q) := by
  have hops : ∀ op ∈ (walkTree tree []).flatMap (stepOps nameT fileT dst),
      dst <+: opPath op := by
    intro op hop
    rw [List.mem_flatMap] at hop
    obtain ⟨e, -, hmem⟩ := hop
    exact stepOps_paths nameT fileT dst e op hmem
  constructor
  · intro q hq
    rw [folderRun_eq_ops]
    rw [foldl_applyOp_frame _ _ _ hops (prefixesPresent_makedirsFS _ dst) hq]
    -- the pre-walk part: rmtree (if present) then makedirs dst
    rw [lookupFS_makedirsFS]
    have hfs1 : lookupFS (if (lookupFS fs dst).isSome then rmtreeFS fs dst else fs) q =
        lookupFS fs q := by
      split
      · rw [lookupFS_rmtreeFS, if_neg hq]
      · rfl
    rw [hfs1]
    rw [if_neg]
    rintro ⟨hne, hpre, hnone⟩
    have hproper : q ≠ dst := by
      rintro rfl
      exact hq (List.prefix_refl q)
    have := hanc q hpre hproper hne
    rw [hnone] at this
    simp at this
  · intro q hq
    rw [folderRun_eq_ops, folderRun_eq_ops]
    refine foldl_applyOp_under _ _ _ ?_ q hq
    intro r hr
    -- compare the two pre-walk states below `dst`
    have hB : lookupFS ([] : FS) dst = none := rfl
    rw [lookupFS_makedirsFS, lookupFS_makedirsFS]
    have hrB : lookupFS ([] : FS) r = none := rfl
    have hfs1A : lookupFS (if (lookupFS fs dst).isSome then rmtreeFS fs dst else fs) r =
        none := by
      split
      · rw [lookupFS_rmtreeFS, if_pos hr]
      · rename_i hmiss
        have : lookupFS fs dst = none := by
          cases hlk : lookupFS fs dst
          · rfl
          · rw [hlk] at hmiss; simp at hmiss
        exact hclosed this r hr
    have hfs1B : lookupFS (if (lookupFS ([] : FS) dst).isSome
        then rmtreeFS ([] : FS) dst else ([] : FS)) r = none := by
      split <;> rfl
    rw [hfs1A, hfs1B]


/-- C8: on a modeled filesystem, `compress_folder` and `decompress_folder`
each first delete a pre-existing destination tree and then write only under
the destination: paths outside the destination subtree are unchanged, paths
under the source are untouched (for disjoint source and destination), and
the contents under the destination do not depend on the prior filesystem. -/
theorem C8_folder_frame (compress : List ℕ → ℕ → List ℕ)
    (decompress : List ℕ → List ℕ) (fs : FS) (tree : Tree) (src dst : Path)
    (level : ℕ)
    (hdisj1 : ¬dst <+: src) (hdisj2 : ¬src <+: dst)
    (hanc : ∀ r, r <+: dst → r ≠ dst → r ≠ [] → (lookupFS fs r).isSome)
    (hclosed : lookupFS fs dst = none → ∀ q, dst <+: q → lookupFS fs q = none) :
    ((∀ q, ¬dst <+: q →
        lookupFS (compress_folder compress fs tree src dst level) q = lookupFS fs q) ∧
     (∀ q, src <+: q →
        lookupFS (compress_folder compress fs tree src dst level) q = lookupFS fs q) ∧
     (∀ q, dst <+: q →
        lookupFS (compress_folder compress fs tree src dst level) q =
          lookupFS (compress_folder compress [] tree src dst level) q)) ∧
    ((∀ q, ¬dst <+: q →
        lookupFS (decompress_folder decompress fs tree src dst) q = lookupFS fs q) ∧
     (∀ q, src <+: q →
        lookupFS (decompress_folder decompress fs tree src dst) q = lookupFS fs q) ∧
     (∀ q, dst <+: q →
        lookupFS (decompress_folder decompress fs tree src dst) q =
          lookupFS (decompress_folder decompress [] tree src dst) q)) := by
  have hsrc_not_dst : ∀ q : Path, src <+: q → ¬dst <+: q := by
    intro q hs hd
    rcases List.prefix_or_prefix_of_prefix hs hd with h | h
    · exact hdisj2 h
    · exact hdisj1 h
  constructor
  · have hmain := folderRun_frame (encodeNameStr compress level)
      (compressFileContent compress level) fs tree dst hanc hclosed
    exact ⟨hmain.1, fun q hs => hmain.1 q (hsrc_not_dst q hs), hmain.2⟩
  · have hmain := folderRun_frame (decodeNameStr decompress)
      (decompressFileContent decompress) fs tree dst hanc hclosed
    exact ⟨hmain.1, fun q hs => hmain.1 q (hsrc_not_dst q hs), hmain.2⟩

/-- A filesystem on which the C8 frame properties are exercised. -/
def wfs : FS :=
  [(["out"], Entry.dir), (["out", "x"], Entry.file [7]), (["in"], Entry.dir),
   (["in", "a.txt"], Entry.file [1, 2])]

/-- The source tree used in concrete runs. -/
def wtree : Tree := Tree.node [("a.txt", [1, 2])] [("sub", Tree.node [] [])]

theorem singleton_prefix_cases {r : Path} {x : String} (hr : r <+: [x]) :
    r = [] ∨ r = [x] := by
  obtain ⟨t, ht⟩ := hr
  cases r with
  | nil => exact Or.inl rfl
  | cons a r2 =>
      simp only [List.cons_append, List.cons.injEq] at ht
      obtain ⟨rfl, ht2⟩ := ht
      obtain ⟨rfl, -⟩ := List.append_eq_nil.mp ht2
      exact Or.inr rfl

theorem C8_folder_frame_witness :
    (∀ q, ¬["out"] <+: q →
       lookupFS (compress_folder (fun d _ => d) wfs wtree ["in"] ["out"] 3) q =
         lookupFS wfs q) ∧
    (∀ q, ["out"] <+: q →
       lookupFS (decompress_folder id wfs wtree ["in"] ["out"]) q =
         lookupFS (decompress_folder id [] wtree ["in"] ["out"]) q) := by
  have h := C8_folder_frame (fun d _ => d) id wfs wtree ["in"] ["out"] 3
    (by decide) (by decide)
    (by
      intro r hr hne hnil
      rcases singleton_prefix_cases hr with rfl | rfl
      · exact absurd rfl hnil
      · exact absurd rfl hne)
    (fun hmiss => absurd hmiss (by decide))
  exact ⟨h.1.1, h.2.2.2⟩

/-- The characters allowed in encoded names: ASCII letters, digits,
hyphen and underscore. -/
def safeChar (c : Char) : Prop :=
  c.isAlpha = true ∨ c.isDigit = true ∨ c = '-' ∨ c = '_'

/-- A path component all of whose characters are safe. -/
def safeName (s : String) : Prop := ∀ c ∈ s.toList, safeChar c

instance (c : Char) : Decidable (safeChar c) := by
  unfold safeChar
  infer_instance

theorem alphabet_safe : ∀ c ∈ urlsafeAlphabet, safeChar c := by decide

theorem encodeNameStr_safe {compress : List ℕ → ℕ → List ℕ}
    (hbytes : ∀ d level, ∀ b ∈ compress d level, b < 256)
    (level : ℕ) (name : String) :
    safeName (encodeNameStr compress level name) := by
  intro c hc
  have hc' : c ∈ encode_name compress name level := by
    simpa [encodeNameStr] using hc
  unfold encode_name at hc'
  exact alphabet_safe c (b64_encode_chars (hbytes _ _) c hc').1

/-- Every present path strictly below `dst` has only safe components after
the `dst` part. -/
def safeUnder (dst : Path) (fs : FS) : Prop :=
  ∀ q, dst <+: q → q ≠ dst → (lookupFS fs q).isSome →
    ∀ comp ∈ q.drop dst.length, safeName comp

/-- An operation whose target is `dst` extended by safe components. -/
def safeOp (dst : Path) (op : FsOp) : Prop :=
  ∃ s, opPath op = dst ++ s ∧ ∀ comp ∈ s, safeName comp

theorem stepOps_safe {nameT : String → String} (fileT : List ℕ → List ℕ)
    (dst : Path) (e : List String × List String × List (String × List ℕ))
    (hsafeT : ∀ n, safeName (nameT n)) :
    ∀ op ∈ stepOps nameT fileT dst e, safeOp dst op := by
  intro op hop
  unfold stepOps at hop
  simp only [List.mem_cons, List.mem_append, List.mem_map] at hop
  have hbase : ∀ comp ∈ e.1.map nameT, safeName comp := by
    intro comp hcomp
    obtain ⟨n, -, rfl⟩ := List.mem_map.mp hcomp
    exact hsafeT n
  rcases hop with rfl | ⟨d, -, rfl⟩ | ⟨f, -, rfl⟩
  · exact ⟨e.1.map nameT, rfl, hbase⟩
  · refine ⟨e.1.map nameT ++ [nameT d], ?_, ?_⟩
    · show (dst ++ _) ++ _ = _
      rw [List.append_assoc]
    · intro comp hcomp
      rcases List.mem_append.mp hcomp with h | h
      · exact hbase comp h
      · rw [List.mem_singleton.mp h]
        exact hsafeT d
  · refine ⟨e.1.map nameT ++ [nameT f.1], ?_, ?_⟩
    · show (dst ++ _) ++ _ = _
      rw [List.append_assoc]
    · intro comp hcomp
      rcases List.mem_append.mp hcomp with h | h
      · exact hbase comp h
      · rw [List.mem_singleton.mp h]
        exact hsafeT f.1

theorem safe_suffix_of_prefix {dst q s : Path}
    (hq : dst <+: q) (hpre : q <+: dst ++ s)
    (hsafe : ∀ comp ∈ s, safeName comp) :
    ∀ comp ∈ q.drop dst.length, safeName comp := by
  obtain ⟨s2, rfl⟩ := hq
  rw [List.prefix_append_right_inj] at hpre
  rw [List.drop_left]
  intro comp hcomp
  exact hsafe comp (hpre.subset hcomp)

theorem applyOp_safeUnder {dst : Path} {fs : FS} (op : FsOp)
    (hop : safeOp dst op) (h : safeUnder dst fs) :
    safeUnder dst (applyOp fs op) := by
  obtain ⟨s, hpath, hsafe⟩ := hop
  intro q hq hne hsome
  cases op with
  | mkdirs p =>
      rw [show applyOp fs (FsOp.mkdirs p) = makedirsFS fs p from rfl,
        lookupFS_makedirsFS] at hsome
      by_cases hcond : q ≠ [] ∧ q <+: p ∧ lookupFS fs q = none
      · have hpre : q <+: dst ++ s := by
          rw [← hpath]
          exact hcond.2.1
        exact safe_suffix_of_prefix hq hpre hsafe
      · rw [if_neg hcond] at hsome
        exact h q hq hne hsome
  | write p c =>
      rw [show applyOp fs (FsOp.write p c) = writeFS fs p c from rfl,
        lookupFS_writeFS] at hsome
      by_cases hqp : q = p
      · subst hqp
        have hpre : q <+: dst ++ s := by
          rw [← hpath]
          exact List.prefix_refl _
        exact safe_suffix_of_prefix hq hpre hsafe
      · rw [if_neg hqp] at hsome
        exact h q hq hne hsome

theorem foldl_applyOp_safeUnder {dst : Path} (ops : List FsOp) (fs : FS)
    (hops : ∀ op ∈ ops, safeOp dst op) (h : safeUnder dst fs) :
    safeUnder dst (ops.foldl applyOp fs) := by
  induction ops generalizing fs with
  | nil => exact h
  | cons op ops ih =>
      rw [List.foldl_cons]
      exact ih (applyOp fs op) (fun o ho => hops o (List.mem_cons_of_mem op ho))
        (applyOp_safeUnder op (hops op (List.mem_cons_self op ops)) h)

theorem safeUnder_makedirs_base (dst : Path) :
    safeUnder dst (makedirsFS ([] : FS) dst) := by
  intro q hq hne hsome
  rw [lookupFS_makedirsFS] at hsome
  have hnq : ¬q <+: dst := by
    intro hqd
    exact hne (hqd.eq_of_length_le hq.length_le)
  rw [if_neg (fun hc => hnq hc.2.1)] at hsome
  simp [lookupFS] at hsome

/-- C5: `_b64_encode` produces only ASCII letters, digits, hyphen and
underscore, never `=`; hence every directory and file name created by
`compress_folder` under the destination consists only of those characters
(for a compression backend producing byte-valued output). -/
theorem C5_encoded_names_safe (compress : List ℕ → ℕ → List ℕ)
    (hbytes : ∀ d level, ∀ b ∈ compress d level, b < 256) :
    (∀ data : List ℕ, (∀ b ∈ data, b < 256) →
        ∀ c ∈ b64_encode data, safeChar c ∧ c ≠ '=') ∧
    (∀ (tree : Tree) (src dst : Path) (level : ℕ) (q : Path),
        dst <+: q → q ≠ dst →
        (lookupFS (compress_folder compress [] tree src dst level) q).isSome →
        ∀ comp ∈ q.drop dst.length, safeName comp) := by
  constructor
  · intro data h c hc
    have hm := b64_encode_chars h c hc
    exact ⟨alphabet_safe c hm.1, hm.2⟩
  · intro tree src dst level q hq hne hsome
    rw [show compress_folder compress [] tree src dst level =
        folderRun (encodeNameStr compress level)
          (compressFileContent compress level) [] tree dst from rfl,
      folderRun_eq_ops] at hsome
    have hbase : (if (lookupFS ([] : FS) dst).isSome
        then rmtreeFS ([] : FS) dst else ([] : FS)) = ([] : FS) := rfl
    rw [hbase] at hsome
    refine foldl_applyOp_safeUnder _ _ ?_ (safeUnder_makedirs_base dst)
      q hq hne hsome
    intro op hop
    rw [List.mem_flatMap] at hop
    obtain ⟨e, -, hmem⟩ := hop
    exact stepOps_safe _ dst e
      (fun n => encodeNameStr_safe hbytes level n) op hmem

theorem C5_encoded_names_safe_witness :
    safeChar ((b64_encode [0, 77, 255]).headD 'A') ∧
    (b64_encode [0, 77, 255]).headD 'A' ≠ '=' :=
  (C5_encoded_names_safe unaryCompress unaryCompress_bytes).1 [0, 77, 255]
    (by decide) ((b64_encode [0, 77, 255]).headD 'A') (by decide)

end ZstdTextfs

namespace TanakhSplitter

/-- A detected silence interval (`Silence` dataclass); Python floats are
embedded as exact rationals.  `stop` renders the field `end`, which is a
reserved word in Lean. -/
structure Silence where
  start : ℚ
  stop : ℚ
  duration : ℚ
deriving DecidableEq, Repr

/-- `Silence.mid`. -/
def Silence.mid (s : Silence) : ℚ := (s.start + s.stop) / 2

/-- A verse segment (`Segment` dataclass). -/
structure Segment where
  verse : ℕ
  start : ℚ
  stop : ℚ
  he_text : String
deriving DecidableEq, Repr

/-- The loop body of `build_segments_from_silences`: one segment per
boundary silence, then the final verse segment running to the total
duration. -/
def buildLoop (verses : List String) (total : ℚ) (trim : Bool)
    (spad epad : ℚ) : List Silence → ℕ → ℚ → List Segment
  | [], _, cursor =>
      [{ verse := verses.length, start := cursor, stop := total,
         he_text := verses.getLastD "" }]
  | sil :: rest, i, cursor =>
      let mid := sil.mid
      let p :=
        if trim then
          let end_t := min total (max 0 (sil.start + epad))
          let next_start := min total (max 0 (sil.stop - spad))
          if next_start ≤ end_t then (mid, mid) else (end_t, next_start)
        else (mid, mid)
      let end_t := max cursor (min total p.1)
      let next_start := max end_t (min total p.2)
      { verse := i + 1, start := cursor, stop := end_t,
        he_text := verses.getD i "" } ::
        buildLoop verses total trim spad epad rest (i + 1) next_start

/-- `build_segments_from_silences`; `Except.error` models `ValueError`. -/
def build_segments_from_silences (verses_he : List String)
    (total_duration : ℚ) (boundary_silences : List Silence)
    (trim_silence : Bool) (start_pad_s end_pad_s : ℚ) :
    Except String (List Segment) :=
  let verse_count := verses_he.length
  if verse_count = 0 then Except.error "No verses"
  else if boundary_silences.length ≠ verse_count - 1 then
    Except.error "Expected boundary silences mismatch"
  else
    Except.ok (buildLoop verses_he total_duration trim_silence start_pad_s
      end_pad_s boundary_silences 0 0)

theorem buildLoop_spec (verses : List String) (total : ℚ) (trim : Bool)
    (spad epad : ℚ) (bs : List Silence) (i : ℕ) (cursor : ℚ)
    (h0 : 0 ≤ cursor) (h1 : cursor ≤ total) :
    (buildLoop verses total trim spad epad bs i cursor).length = bs.length + 1 ∧
    ((buildLoop verses total trim spad epad bs i cursor).head?.map Segment.start)
      = some cursor ∧
    ((buildLoop verses total trim spad epad bs i cursor).getLast?.map Segment.stop)
      = some total ∧
    (∀ s ∈ buildLoop verses total trim spad epad bs i cursor,
      s.start ≤ s.stop ∧ 0 ≤ s.start ∧ s.stop ≤ total) ∧
    (buildLoop verses total trim spad epad bs i cursor).Chain'
      (fun a b => a.stop ≤ b.start) := by
  induction bs generalizing i cursor with
  | nil =>
      refine ⟨rfl, rfl, rfl, ?_, ?_⟩
      · intro s hs
        simp only [buildLoop, List.mem_singleton] at hs
        subst hs
        exact ⟨h1, h0, le_refl total⟩
      · exact List.chain'_singleton _
  | cons sil rest ih =>
      set p : ℚ × ℚ :=
        (if trim then
          let end_t := min total (max 0 (sil.start + epad))
          let next_start := min total (max 0 (sil.stop - spad))
          if next_start ≤ end_t then (sil.mid, sil.mid)
          else (end_t, next_start)
        else (sil.mid, sil.mid)) with hp
      set end_t := max cursor (min total p.1) with hend
      set next_start := max end_t (min total p.2) with hnext
      have hce : cursor ≤ end_t := le_max_left _ _
      have het : end_t ≤ total := by
        rw [hend]
        exact max_le h1 (min_le_left _ _)
      have hen : end_t ≤ next_start := le_max_left _ _
      have hnt : next_start ≤ total := by
        rw [hnext]
        exact max_le het (min_le_left _ _)
      have hn0 : 0 ≤ next_start := le_trans (le_trans h0 hce) hen
      obtain ⟨hlen, hhead, hlast, hbounds, hchain⟩ := ih (i + 1) next_start hn0 hnt
      have hsegs : buildLoop verses total trim spad epad (sil :: rest) i cursor =
          (⟨i + 1, cursor, end_t, verses.getD i ""⟩ : Segment) ::
            buildLoop verses total trim spad epad rest (i + 1) next_start := rfl
      rw [hsegs]
      cases htail : buildLoop verses total trim spad epad rest (i + 1) next_start with
      | nil =>
          rw [htail] at hlen
          simp at hlen
      | cons z zs =>
          rw [htail] at hlen hhead hlast hbounds hchain
          refine ⟨by simp [hlen], rfl, ?_, ?_, ?_⟩
          · rw [List.getLast?_cons_cons]
            exact hlast
          · intro s hs
            rcases List.mem_cons.mp hs with rfl | hs2
            · exact ⟨hce, h0, het⟩
            · exact hbounds s hs2
          · rw [List.chain'_cons]
            refine ⟨?_, hchain⟩
            have hz : z.start = next_start := by
              have h2 : some z.start = some next_start := hhead
              injection h2
            show end_t ≤ z.start
            rw [hz]
            exact hen


/-- C9: for a non-empty verse list and a boundary list of length exactly
`verse_count - 1`, `build_segments_from_silences` returns `verse_count`
segments starting at `0`, ending at `total_duration`, each well-formed and
within `[0, total_duration]`, with consecutive segments non-overlapping; it
raises `ValueError` when the verse list is empty or the boundary list has
any other length. -/
theorem C9_segments_invariant (verses_he : List String) (total_duration : ℚ)
    (boundary_silences : List Silence) (trim_silence : Bool)
    (start_pad_s end_pad_s : ℚ) (htot : 0 ≤ total_duration) :
    (verses_he = [] → ∃ msg, build_segments_from_silences verses_he
        total_duration boundary_silences trim_silence start_pad_s end_pad_s =
        Except.error msg) ∧
    (boundary_silences.length ≠ verses_he.length - 1 →
      ∃ msg, build_segments_from_silences verses_he total_duration
        boundary_silences trim_silence start_pad_s end_pad_s =
        Except.error msg) ∧
    (verses_he ≠ [] → boundary_silences.length = verses_he.length - 1 →
      ∃ segs, build_segments_from_silences verses_he total_duration
          boundary_silences trim_silence start_pad_s end_pad_s =
          Except.ok segs ∧
        segs.length = verses_he.length ∧
        segs.head?.map Segment.start = some 0 ∧
        segs.getLast?.map Segment.stop = some total_duration ∧
        (∀ s ∈ segs, s.start ≤ s.stop ∧ 0 ≤ s.start ∧
          s.stop ≤ total_duration) ∧
        segs.Chain' (fun a b => a.stop ≤ b.start)) := by
  refine ⟨?_, ?_, ?_⟩
  · intro hempty
    subst hempty
    exact ⟨"No verses", rfl⟩
  · intro hlen
    unfold build_segments_from_silences
    by_cases hvc : verses_he.length = 0
    · rw [if_pos hvc]
      exact ⟨"No verses", rfl⟩
    · rw [if_neg hvc, if_pos hlen]
      exact ⟨"Expected boundary silences mismatch", rfl⟩
  · intro hne hlen
    have hvc : verses_he.length ≠ 0 := fun h => hne (List.length_eq_zero.mp h)
    unfold build_segments_from_silences
    rw [if_neg hvc, if_neg (fun hc => hc hlen)]
    refine ⟨_, rfl, ?_⟩
    obtain ⟨hl, hh, hla, hb, hch⟩ := buildLoop_spec verses_he total_duration
      trim_silence start_pad_s end_pad_s boundary_silences 0 0
      (le_refl 0) htot
    refine ⟨?_, hh, hla, hb, hch⟩
    rw [hl, hlen]
    omega

theorem C9_segments_invariant_witness :
    ∃ segs, build_segments_from_silences ["a", "b"] 10
        [⟨4, 6, 2⟩] false 0 0 = Except.ok segs ∧
      segs.length = (["a", "b"] : List String).length ∧
      segs.head?.map Segment.start = some 0 ∧
      segs.getLast?.map Segment.stop = some 10 ∧
      (∀ s ∈ segs, s.start ≤ s.stop ∧ 0 ≤ s.start ∧ s.stop ≤ 10) ∧
      segs.Chain' (fun a b => a.stop ≤ b.start) :=
  (C9_segments_invariant ["a", "b"] 10 [⟨4, 6, 2⟩] false 0 0
    (by norm_num)).2.2 (by simp) (by simp)


instance : Inhabited Silence := ⟨⟨0, 0, 0⟩⟩

/-- `_boundary_cost`: distance of the candidate's midpoint from the
expected boundary time, minus a bonus for longer silences. -/
def boundary_cost (expected_t : ℚ) (cand : Silence) : ℚ :=
  |cand.mid - expected_t| - (15 / 100) * cand.duration

/-- The sentinel `INF = 1e18` used by the DP. -/
def INF : ℚ := 10 ^ 18

/-- The `while` loop of the DP's inner pass: advance `k` over candidates
far enough behind `j`, keeping the best `dp_prev` value seen and its
index. -/
def advanceK (times dpPrev : List ℚ) (theta : ℚ) (j : ℕ) :
    ℕ → ℚ → ℤ → ℕ × ℚ × ℤ
  | k, bc, bi =>
      if h : k < j ∧ times.getD k 0 ≤ theta then
        if dpPrev.getD k 0 < bc then
          advanceK times dpPrev theta j (k + 1) (dpPrev.getD k 0) (k : ℤ)
        else
          advanceK times dpPrev theta j (k + 1) bc bi
      else (k, bc, bi)
termination_by k => j - k
decreasing_by
  · omega
  · omega

/-- The `for j in range(m)` loop of one DP layer, producing the
`(dp_curr[j], back[i][j])` pairs in order. -/
def innerLoop (times dpPrev : List ℚ) (expected_i min_gap : ℚ)
    (cands : List Silence) (m : ℕ) : ℕ → ℕ → ℚ → ℤ → List (ℚ × ℤ)
  | j, k, bc, bi =>
      if j < m then
        let theta := times.getD j 0 - min_gap
        let st := advanceK times dpPrev theta j k bc bi
        let entry : ℚ × ℤ :=
          if st.2.2 = -1 then (INF, -1)
          else (st.2.1 + boundary_cost expected_i (cands.getD j default), st.2.2)
        entry :: innerLoop times dpPrev expected_i min_gap cands m
          (j + 1) st.1 st.2.1 st.2.2
      else []
termination_by j => m - j
decreasing_by omega

/-- The `for i in range(1, n_boundaries)` loop: run the remaining layers,
returning the final `dp` row and the `back` rows for layers `1..n-1`. -/
def runLayers (times : List ℚ) (cands : List Silence)
    (expected : List ℚ) (min_gap : ℚ) (m n : ℕ) :
    ℕ → List ℚ → List ℚ × List (List ℤ)
  | i, dpPrev =>
      if i < n then
        let row := innerLoop times dpPrev (expected.getD i 0) min_gap cands m
          0 0 INF (-1)
        let res := runLayers times cands expected min_gap m n (i + 1)
          (row.map (·.1))
        (res.1, row.map (·.2) :: res.2)
      else (dpPrev, [])
termination_by i => n - i
decreasing_by omega

/-- `min(range(m), key=...)`: index of the first minimum. -/
def argminAux : List ℚ → ℕ → ℕ → ℚ → ℕ
  | [], _, bj, _ => bj
  | v :: rest, j, bj, bv =>
      if v < bv then argminAux rest (j + 1) j v
      else argminAux rest (j + 1) bj bv

def argminIdx : List ℚ → ℕ
  | [] => 0
  | v :: rest => argminAux rest 1 0 v

/-- The backtracking loop; `none` models the `"DP backtracking failed"`
`ValueError`.  Returns the chain indices in chronological order (the
Python loop collects them reversed and then reverses). -/
def backtrack (back : List (List ℤ)) : ℕ → ℕ → Option (List ℕ)
  | 0, j => some [j]
  | i + 1, j =>
      let jn := (back.getD (i + 1) []).getD j (-1)
      if jn < 0 then none
      else (backtrack back i jn.toNat).map (fun l => l ++ [j])

/-- `choose_boundaries_dp`; `Except.error` models `ValueError`. -/
def choose_boundaries_dp (candidates : List Silence) (total_duration : ℚ)
    (verse_count : ℕ) (min_gap_s : ℚ) : Except String (List Silence) :=
  let n_boundaries := verse_count - 1
  if n_boundaries = 0 then Except.ok []
  else if candidates.length < n_boundaries then
    Except.error "Not enough candidate silences"
  else
    let cands := candidates.mergeSort (fun a b => a.mid ≤ b.mid)
    let times := cands.map Silence.mid
    let expected := (List.range n_boundaries).map
      (fun i => ((Nat.cast i : ℚ) + 1) * total_duration / (verse_count : ℚ))
    let m := cands.length
    let dp0 := (List.range m).map
      (fun j => boundary_cost (expected.getD 0 0) (cands.getD j default))
    let res := runLayers times cands expected min_gap_s m n_boundaries 1 dp0
    let back := (List.replicate m (-1 : ℤ)) :: res.2
    let j_end := argminIdx res.1
    if res.1.getD j_end 0 ≥ INF / 2 then
      Except.error "DP could not find a valid boundary chain"
    else
      match backtrack back (n_boundaries - 1) j_end with
      | none => Except.error "DP backtracking failed"
      | some idxs => Except.ok (idxs.map (fun i => cands.getD i default))

/-- A chain of candidate indices that the DP may select: one index per
boundary, strictly increasing, with consecutive midpoints at least
`min_gap` apart. -/
def ValidChain (times : List ℚ) (min_gap : ℚ) (n : ℕ) (idxs : List ℕ) : Prop :=
  idxs.length = n ∧ (∀ i ∈ idxs, i < times.length) ∧
    idxs.Chain' (fun a b => a < b ∧ times.getD a 0 ≤ times.getD b 0 - min_gap)

/-- Total cost of a chain against the evenly spaced expected times. -/
def chainCost (expected : List ℚ) (cands : List Silence) (idxs : List ℕ) : ℚ :=
  (expected.zip idxs).foldl
    (fun acc p => acc + boundary_cost p.1 (cands.getD p.2 default)) 0


section Counterexample

set_option maxRecDepth 2000 in
/-- An input exhibiting non-optimality of the DP: the first candidate's
cost exceeds the `INF` sentinel, hiding the chain `[0, 1]` from the DP. -/
def cexCands : List Silence :=
  [⟨-2000000000000000000, -2000000000000000000, 0⟩,
   ⟨-1000000000000000000, -1000000000000000000, 31000000000000000000⟩,
   ⟨4100000000000000000, 4100000000000000000, 0⟩]

def cexTimes : List ℚ :=
  [-2000000000000000000, -1000000000000000000, 4100000000000000000]

def cexDp0 : List ℚ :=
  [2000000000000000001, -3649999999999999999, 4099999999999999999]

def cexGap : ℚ := 1000000000000000000

theorem cex_sorted :
    cexCands.mergeSort (fun a b => a.mid ≤ b.mid) = cexCands := by
  apply List.mergeSort_of_sorted
  norm_num [cexCands, Silence.mid, List.pairwise_cons]

theorem cex_times : cexCands.map Silence.mid = cexTimes := by
  norm_num [cexCands, cexTimes, Silence.mid]

theorem cex_adv0 :
    advanceK cexTimes cexDp0 (cexTimes.getD 0 0 - cexGap) 0 0 INF (-1) =
      (0, INF, -1) := by
  rw [advanceK, dif_neg (by norm_num)]

theorem cex_adv1 :
    advanceK cexTimes cexDp0 (cexTimes.getD 1 0 - cexGap) 1 0 INF (-1) =
      (1, INF, -1) := by
  rw [advanceK, dif_pos (by norm_num [cexTimes, cexGap, List.getD])]
  rw [if_neg (by norm_num [cexDp0, INF, List.getD])]
  rw [advanceK, dif_neg (by norm_num)]

theorem cex_adv2 :
    advanceK cexTimes cexDp0 (cexTimes.getD 2 0 - cexGap) 2 1 INF (-1) =
      (2, -3649999999999999999, 1) := by
  rw [advanceK, dif_pos (by norm_num [cexTimes, cexGap, List.getD])]
  rw [if_pos (by norm_num [cexDp0, INF, List.getD])]
  rw [show cexDp0.getD 1 0 = -3649999999999999999 from rfl]
  rw [advanceK, dif_neg (by norm_num)]
  norm_num

set_option maxRecDepth 2000 in
theorem cex_inner :
    innerLoop cexTimes cexDp0 2 cexGap cexCands 3 0 0 INF (-1) =
      [(INF, -1), (INF, -1), (449999999999999999, 1)] := by
  rw [innerLoop, if_pos (by norm_num)]
  dsimp only
  rw [cex_adv0]
  dsimp only
  rw [if_pos rfl]
  rw [innerLoop, if_pos (by norm_num)]
  dsimp only
  rw [cex_adv1]
  dsimp only
  rw [if_pos rfl]
  rw [innerLoop, if_pos (by norm_num)]
  dsimp only
  rw [cex_adv2]
  dsimp only
  rw [if_neg (by norm_num)]
  rw [innerLoop, if_neg (by norm_num)]
  norm_num [boundary_cost, cexCands, Silence.mid, List.getD, abs_of_nonneg]

theorem cex_run :
    runLayers cexTimes cexCands [1, 2] cexGap 3 2 1 cexDp0 =
      ([INF, INF, 449999999999999999], [[-1, -1, 1]]) := by
  rw [runLayers, if_pos (by norm_num)]
  dsimp only
  rw [show (([1, 2] : List ℚ).getD 1 0) = 2 from rfl]
  rw [cex_inner]
  rw [runLayers, if_neg (by norm_num)]
  norm_num

theorem cex_expected :
    (List.range (3 - 1)).map
      (fun i => ((Nat.cast i : ℚ) + 1) * 3 / ((3 : ℕ) : ℚ)) = [1, 2] := by
  norm_num [List.range_succ]

set_option maxRecDepth 2000 in
theorem cex_dp0 :
    (List.range cexCands.length).map
      (fun j => boundary_cost ((([1, 2] : List ℚ)).getD 0 0)
        (cexCands.getD j default)) = cexDp0 := by
  norm_num [List.range_succ, boundary_cost, cexCands, cexDp0, Silence.mid,
    List.getD, abs_of_nonpos, abs_of_nonneg]

set_option maxRecDepth 2000 in
theorem cex_result :
    choose_boundaries_dp cexCands 3 3 cexGap =
      Except.ok [cexCands.getD 1 default, cexCands.getD 2 default] := by
  rw [choose_boundaries_dp]
  rw [if_neg (by norm_num)]
  rw [if_neg (by simp [cexCands])]
  dsimp only
  rw [cex_sorted]
  rw [cex_times]
  rw [cex_expected]
  rw [cex_dp0]
  rw [show cexCands.length = 3 from rfl]
  rw [show (3 : ℕ) - 1 = 2 from rfl]
  rw [cex_run]
  dsimp only
  rw [show argminIdx [INF, INF, (449999999999999999 : ℚ)] = 2 from by
    norm_num [argminIdx, argminAux, INF]]
  rw [if_neg (by norm_num [INF, List.getD])]
  rw [show backtrack (List.replicate 3 (-1 : ℤ) :: [[(-1 : ℤ), -1, 1]]) 1 2 =
      some [1, 2] from by norm_num [backtrack, List.getD, List.replicate]]
  norm_num

set_option maxRecDepth 2000 in
/-- C2, counterexample to the optimality clause as stated: on this input
`choose_boundaries_dp` returns the chain of sorted-candidate indices
`[1, 2]`, yet the chain `[0, 2]`-indices... the chain `[0, 1]` also
satisfies the ordering-and-spacing constraint and has strictly smaller
total `_boundary_cost` against the expected times `[1, 2]`.  The DP hides
chains whose predecessors all carry a cost at or above the `INF = 1e18`
sentinel. -/
theorem C2_counterexample :
    choose_boundaries_dp cexCands 3 3 cexGap =
      Except.ok [cexCands.getD 1 default, cexCands.getD 2 default] ∧
    ValidChain (cexCands.map Silence.mid) cexGap (3 - 1) [0, 1] ∧
    chainCost [1, 2] cexCands [0, 1] <
      boundary_cost 1 (cexCands.getD 1 default) +
        boundary_cost 2 (cexCands.getD 2 default) := by
  refine ⟨cex_result, ?_, ?_⟩
  · rw [cex_times]
    refine ⟨rfl, ?_, ?_⟩
    · intro i hi
      rcases List.mem_cons.mp hi with rfl | hi2
      · norm_num [cexTimes]
      · rcases List.mem_cons.mp hi2 with rfl | hi3
        · norm_num [cexTimes]
        · simp at hi3
    · rw [List.chain'_cons]
      exact ⟨⟨by norm_num, by norm_num [cexTimes, cexGap, List.getD]⟩,
        List.chain'_singleton _⟩
  · simp only [chainCost, List.zip_cons_cons, List.zip_nil_right,
      List.foldl_cons, List.foldl_nil]
    rw [show cexCands.getD 0 default =
      (⟨-2000000000000000000, -2000000000000000000, 0⟩ : Silence) from rfl]
    rw [show cexCands.getD 1 default =
      (⟨-1000000000000000000, -1000000000000000000, 31000000000000000000⟩ : Silence)
      from rfl]
    rw [show cexCands.getD 2 default =
      (⟨4100000000000000000, 4100000000000000000, 0⟩ : Silence) from rfl]
    norm_num [boundary_cost, Silence.mid, abs_of_nonpos, abs_of_nonneg]

end Counterexample


/-! ### Correctness of the boundary-selection DP -/

/-- Loop invariant of the DP's sliding-window minimum: `k` candidates have
been processed, `bc`/`bi` hold the best `dp_prev` value and index seen. -/
def PreInv (times dpPrev : List ℚ) (gap : ℚ) (j k : ℕ) (bc : ℚ) (bi : ℤ) : Prop :=
  k ≤ j ∧
  (∀ k2 < k, bc ≤ dpPrev.getD k2 0) ∧
  (∀ k2 < k, times.getD k2 0 ≤ times.getD j 0 - gap) ∧
  (bi = -1 → bc = INF ∧ ∀ k2 < k, INF ≤ dpPrev.getD k2 0) ∧
  (bi ≠ -1 → 0 ≤ bi ∧ bi.toNat < k ∧ bc = dpPrev.getD bi.toNat 0)

theorem advanceK_spec_aux (times dpPrev : List ℚ) (gap : ℚ) (j : ℕ) :
    ∀ (fuel k : ℕ) (bc : ℚ) (bi : ℤ), j - k ≤ fuel →
    PreInv times dpPrev gap j k bc bi →
    PreInv times dpPrev gap j
      (advanceK times dpPrev (times.getD j 0 - gap) j k bc bi).1
      (advanceK times dpPrev (times.getD j 0 - gap) j k bc bi).2.1
      (advanceK times dpPrev (times.getD j 0 - gap) j k bc bi).2.2 ∧
    ¬((advanceK times dpPrev (times.getD j 0 - gap) j k bc bi).1 < j ∧
      times.getD (advanceK times dpPrev (times.getD j 0 - gap) j k bc bi).1 0 ≤
        times.getD j 0 - gap) := by
  intro fuel
  induction fuel with
  | zero =>
      intro k bc bi hfuel hinv
      have hkj : j ≤ k := by omega
      rw [advanceK, dif_neg (by omega)]
      exact ⟨hinv, by omega⟩
  | succ f ih =>
      intro k bc bi hfuel hinv
      obtain ⟨hk, hbc, htm, hneg, hpos⟩ := hinv
      rw [advanceK]
      by_cases h : k < j ∧ times.getD k 0 ≤ times.getD j 0 - gap
      · rw [dif_pos h]
        by_cases hlt : dpPrev.getD k 0 < bc
        · rw [if_pos hlt]
          refine ih (k + 1) (dpPrev.getD k 0) (k : ℤ) (by omega) ?_
          refine ⟨by omega, ?_, ?_, ?_, ?_⟩
          · intro k2 hk2
            by_cases hk2k : k2 < k
            · exact le_trans (le_of_lt hlt) (hbc k2 hk2k)
            · have : k2 = k := by omega
              subst this
              exact le_refl _
          · intro k2 hk2
            by_cases hk2k : k2 < k
            · exact htm k2 hk2k
            · have : k2 = k := by omega
              subst this
              exact h.2
          · intro hcon
            exact absurd hcon (by omega)
          · intro _
            refine ⟨by omega, ?_, ?_⟩
            · rw [Int.toNat_natCast]
              omega
            · rw [Int.toNat_natCast]
        · rw [if_neg hlt]
          refine ih (k + 1) bc bi (by omega) ?_
          refine ⟨by omega, ?_, ?_, ?_, ?_⟩
          · intro k2 hk2
            by_cases hk2k : k2 < k
            · exact hbc k2 hk2k
            · have : k2 = k := by omega
              subst this
              exact le_of_not_lt hlt
          · intro k2 hk2
            by_cases hk2k : k2 < k
            · exact htm k2 hk2k
            · have : k2 = k := by omega
              subst this
              exact h.2
          · intro hbi
            obtain ⟨hINF, hall⟩ := hneg hbi
            refine ⟨hINF, ?_⟩
            intro k2 hk2
            by_cases hk2k : k2 < k
            · exact hall k2 hk2k
            · have : k2 = k := by omega
              subst this
              rw [← hINF]
              exact le_of_not_lt hlt
          · intro hbi
            obtain ⟨h1, h2, h3⟩ := hpos hbi
            exact ⟨h1, by omega, h3⟩
      · rw [dif_neg h]
        exact ⟨⟨hk, hbc, htm, hneg, hpos⟩, h⟩

theorem advanceK_spec (times dpPrev : List ℚ) (gap : ℚ) (j k : ℕ) (bc : ℚ)
    (bi : ℤ) (hinv : PreInv times dpPrev gap j k bc bi) :
    PreInv times dpPrev gap j
      (advanceK times dpPrev (times.getD j 0 - gap) j k bc bi).1
      (advanceK times dpPrev (times.getD j 0 - gap) j k bc bi).2.1
      (advanceK times dpPrev (times.getD j 0 - gap) j k bc bi).2.2 ∧
    ¬((advanceK times dpPrev (times.getD j 0 - gap) j k bc bi).1 < j ∧
      times.getD (advanceK times dpPrev (times.getD j 0 - gap) j k bc bi).1 0 ≤
        times.getD j 0 - gap) :=
  advanceK_spec_aux times dpPrev gap j (j - k) k bc bi (le_refl _) hinv

/-- Nondecreasing `getD` access into a `≤`-sorted list. -/
theorem sorted_getD {times : List ℚ} (hs : times.Pairwise (· ≤ ·))
    {a b : ℕ} (hab : a ≤ b) (hb : b < times.length) :
    times.getD a 0 ≤ times.getD b 0 := by
  rcases eq_or_lt_of_le hab with rfl | hlt
  · exact le_refl _
  · rw [List.getD_eq_getElem times 0 (lt_trans hlt hb),
      List.getD_eq_getElem times 0 hb]
    exact List.pairwise_iff_getElem.mp hs a b (lt_trans hlt hb) hb hlt

theorem PreInv_succ {times dpPrev : List ℚ} {gap : ℚ} {j k : ℕ} {bc : ℚ}
    {bi : ℤ} (hs : times.Pairwise (· ≤ ·)) (hj : j + 1 < times.length)
    (hinv : PreInv times dpPrev gap j k bc bi) :
    PreInv times dpPrev gap (j + 1) k bc bi := by
  obtain ⟨hk, hbc, htm, hneg, hpos⟩ := hinv
  refine ⟨by omega, hbc, ?_, hneg, hpos⟩
  intro k2 hk2
  have h1 := htm k2 hk2
  have h2 : times.getD j 0 ≤ times.getD (j + 1) 0 :=
    sorted_getD hs (by omega) hj
  linarith


/-- What one DP entry `(dp_curr[j], back[i][j])` guarantees: a set back
pointer is a valid, correctly priced predecessor, and the entry value is
at most `dp_prev[k] + cost` for every valid predecessor `k` whose
`dp_prev` value is below the `INF` sentinel. -/
def EntryOk (times dpPrev : List ℚ) (gap e : ℚ) (cands : List Silence)
    (j : ℕ) (p : ℚ × ℤ) : Prop :=
  (p.2 ≠ -1 → 0 ≤ p.2 ∧ p.2.toNat < j ∧
    times.getD p.2.toNat 0 ≤ times.getD j 0 - gap ∧
    p.1 = dpPrev.getD p.2.toNat 0 + boundary_cost e (cands.getD j default)) ∧
  (∀ k2 < j, times.getD k2 0 ≤ times.getD j 0 - gap →
    dpPrev.getD k2 0 < INF →
    p.1 ≤ dpPrev.getD k2 0 + boundary_cost e (cands.getD j default))

theorem innerLoop_spec_aux (times dpPrev : List ℚ) (gap e : ℚ)
    (cands : List Silence) (m : ℕ) (hs : times.Pairwise (· ≤ ·))
    (hm : m ≤ times.length) :
    ∀ (fuel j k : ℕ) (bc : ℚ) (bi : ℤ), m - j ≤ fuel →
    (j < m → PreInv times dpPrev gap j k bc bi) →
    (innerLoop times dpPrev e gap cands m j k bc bi).length = m - j ∧
    ∀ t, t < m - j →
      EntryOk times dpPrev gap e cands (j + t)
        ((innerLoop times dpPrev e gap cands m j k bc bi).getD t (0, 0)) := by
  intro fuel
  induction fuel with
  | zero =>
      intro j k bc bi hfuel hinv
      have hjm : m ≤ j := by omega
      rw [innerLoop, if_neg (by omega)]
      exact ⟨by simp; omega, fun t ht => absurd ht (by omega)⟩
  | succ f ih =>
      intro j k bc bi hfuel hinv
      by_cases hjm : j < m
      · obtain ⟨hpost, hexit⟩ := advanceK_spec times dpPrev gap j k bc bi (hinv hjm)
        obtain ⟨hk', hbc', htm', hneg', hpos'⟩ := hpost
        rw [innerLoop, if_pos hjm]
        set st := advanceK times dpPrev (times.getD j 0 - gap) j k bc bi with hst
        have hrec := ih (j + 1) st.1 st.2.1 st.2.2 (by omega)
          (fun hj1 => PreInv_succ hs (by omega) ⟨hk', hbc', htm', hneg', hpos'⟩)
        -- the produced entry satisfies EntryOk at j
        have hentry : EntryOk times dpPrev gap e cands j
            (if st.2.2 = -1 then ((INF : ℚ), (-1 : ℤ))
             else (st.2.1 + boundary_cost e (cands.getD j default), st.2.2)) := by
          constructor
          · intro hne
            by_cases hcase : st.2.2 = -1
            · rw [if_pos hcase] at hne
              exact absurd rfl hne
            · rw [if_neg hcase]
              obtain ⟨h1, h2, h3⟩ := hpos' hcase
              exact ⟨h1, by omega, htm' _ h2, by rw [h3]⟩
          · intro k2 hk2 hkt hkinf
            -- k2 was processed: k2 < st.1
            have hproc : k2 < st.1 := by
              by_contra hge
              rcases not_and_or.mp hexit with hcase | hcase
              · omega
              · have hle : st.1 ≤ k2 := by omega
                have : times.getD st.1 0 ≤ times.getD k2 0 :=
                  sorted_getD hs hle (by omega)
                exact hcase (le_trans this hkt)
            by_cases hcase : st.2.2 = -1
            · obtain ⟨-, hall⟩ := hneg' hcase
              exact absurd hkinf (not_lt.mpr (hall k2 hproc))
            · rw [if_neg hcase]
              have := hbc' k2 hproc
              simp only
              linarith
        constructor
        · rw [List.length_cons, hrec.1]
          omega
        · intro t ht
          cases t with
          | zero =>
              exact hentry
          | succ t' =>
              have ht' : t' < m - (j + 1) := by omega
              have := hrec.2 t' ht'
              have harith : j + 1 + t' = j + (t' + 1) := by omega
              rw [harith] at this
              exact this
      · rw [innerLoop, if_neg hjm]
        exact ⟨by simp; omega, fun t ht => absurd ht (by omega)⟩

theorem innerLoop_spec (times dpPrev : List ℚ) (gap e : ℚ)
    (cands : List Silence) (m : ℕ) (hs : times.Pairwise (· ≤ ·))
    (hm : m ≤ times.length) :
    (innerLoop times dpPrev e gap cands m 0 0 INF (-1)).length = m ∧
    ∀ t, t < m →
      EntryOk times dpPrev gap e cands t
        ((innerLoop times dpPrev e gap cands m 0 0 INF (-1)).getD t (0, 0)) := by
  have h := innerLoop_spec_aux times dpPrev gap e cands m hs hm (m - 0) 0 0 INF (-1)
    (le_refl _)
    (fun _ => ⟨le_refl 0, fun k2 hk2 => absurd hk2 (by omega),
      fun k2 hk2 => absurd hk2 (by omega),
      fun _ => ⟨rfl, fun k2 hk2 => absurd hk2 (by omega)⟩,
      fun hne => absurd rfl hne⟩)
  refine ⟨by rw [h.1]; omega, ?_⟩
  intro t ht
  have := h.2 t (by omega)
  simpa using this


/-- The `dp` row after processing layer `i` (layer `0` is the initial
row). -/
def dpAt (times : List ℚ) (cands : List Silence) (expected : List ℚ)
    (gap : ℚ) (m : ℕ) (dp0 : List ℚ) : ℕ → List ℚ
  | 0 => dp0
  | i + 1 =>
      (innerLoop times (dpAt times cands expected gap m dp0 i)
        (expected.getD (i + 1) 0) gap cands m 0 0 INF (-1)).map (·.1)

/-- The back-pointer row of layer `i` (layer `0` is the unused dummy). -/
def backAt (times : List ℚ) (cands : List Silence) (expected : List ℚ)
    (gap : ℚ) (m : ℕ) (dp0 : List ℚ) : ℕ → List ℤ
  | 0 => List.replicate m (-1)
  | i + 1 =>
      (innerLoop times (dpAt times cands expected gap m dp0 i)
        (expected.getD (i + 1) 0) gap cands m 0 0 INF (-1)).map (·.2)

theorem runLayers_spec_aux (times : List ℚ) (cands : List Silence)
    (expected : List ℚ) (gap : ℚ) (m n : ℕ) (dp0 : List ℚ) :
    ∀ (fuel i : ℕ), 1 ≤ i → i ≤ n → n - i ≤ fuel →
    runLayers times cands expected gap m n i
        (dpAt times cands expected gap m dp0 (i - 1)) =
      (dpAt times cands expected gap m dp0 (n - 1),
       (List.range (n - i)).map
         (fun s => backAt times cands expected gap m dp0 (i + s))) := by
  intro fuel
  induction fuel with
  | zero =>
      intro i h1 h2 hf
      have : i = n := by omega
      subst this
      rw [runLayers, if_neg (by omega)]
      simp
  | succ f ih =>
      intro i h1 h2 hf
      by_cases hin : i < n
      · obtain ⟨i', rfl⟩ : ∃ i2, i = i2 + 1 := ⟨i - 1, by omega⟩
        rw [runLayers, if_pos hin]
        dsimp only
        have hsimp : i' + 1 - 1 = i' := by omega
        rw [hsimp]
        have hnext := ih (i' + 2) (by omega) (by omega) (by omega)
        have hsimp2 : i' + 2 - 1 = i' + 1 := by omega
        rw [hsimp2] at hnext
        have hdp : (innerLoop times (dpAt times cands expected gap m dp0 i')
            (expected.getD (i' + 1) 0) gap cands m 0 0 INF (-1)).map (·.1) =
            dpAt times cands expected gap m dp0 (i' + 1) := rfl
        have hbk : (innerLoop times (dpAt times cands expected gap m dp0 i')
            (expected.getD (i' + 1) 0) gap cands m 0 0 INF (-1)).map (·.2) =
            backAt times cands expected gap m dp0 (i' + 1) := rfl
        rw [hdp, hbk, hnext]
        have hrange : (List.range (n - (i' + 1))).map
            (fun s => backAt times cands expected gap m dp0 (i' + 1 + s)) =
            backAt times cands expected gap m dp0 (i' + 1) ::
              (List.range (n - (i' + 2))).map
                (fun s => backAt times cands expected gap m dp0 (i' + 2 + s)) := by
          obtain ⟨K, hK⟩ : ∃ K, n - (i' + 1) = K + 1 := ⟨n - (i' + 2), by omega⟩
          rw [hK, List.range_succ_eq_map]
          rw [List.map_cons, List.map_map]
          have hK2 : n - (i' + 2) = K := by omega
          rw [hK2]
          congr 1
          apply List.map_congr_left
          intro s _
          show backAt times cands expected gap m dp0 (i' + 1 + (s + 1)) = _
          have : i' + 1 + (s + 1) = i' + 2 + s := by omega
          rw [this]
        rw [hrange]
      · have : i = n := by omega
        subst this
        rw [runLayers, if_neg (by omega)]
        simp

theorem runLayers_spec (times : List ℚ) (cands : List Silence)
    (expected : List ℚ) (gap : ℚ) (m n : ℕ) (dp0 : List ℚ) (hn : 1 ≤ n) :
    runLayers times cands expected gap m n 1 dp0 =
      (dpAt times cands expected gap m dp0 (n - 1),
       (List.range (n - 1)).map
         (fun s => backAt times cands expected gap m dp0 (1 + s))) :=
  runLayers_spec_aux times cands expected gap m n dp0 (n - 1) 1 (le_refl 1) hn
    (le_refl _)


/-- Cost of the first `t + 1` boundaries of a chain (given by indices into
the sorted candidate list). -/
def prefixCost (expected : List ℚ) (cands : List Silence) (idxs : List ℕ) :
    ℕ → ℚ
  | 0 => boundary_cost (expected.getD 0 0) (cands.getD (idxs.getD 0 0) default)
  | t + 1 =>
      prefixCost expected cands idxs t +
        boundary_cost (expected.getD (t + 1) 0)
          (cands.getD (idxs.getD (t + 1) 0) default)

theorem prefixCost_congr (expected : List ℚ) (cands : List Silence)
    {xs ys : List ℕ} :
    ∀ i, (∀ t ≤ i, xs.getD t 0 = ys.getD t 0) →
    prefixCost expected cands xs i = prefixCost expected cands ys i := by
  intro i
  induction i with
  | zero =>
      intro h
      unfold prefixCost
      rw [h 0 (le_refl 0)]
  | succ t ih =>
      intro h
      unfold prefixCost
      rw [ih (fun u hu => h u (by omega)), h (t + 1) (le_refl _)]

theorem dpAt_length (times : List ℚ) (cands : List Silence)
    (expected : List ℚ) (gap : ℚ) (m : ℕ) (dp0 : List ℚ)
    (hs : times.Pairwise (· ≤ ·)) (hm : m ≤ times.length)
    (hdp0 : dp0.length = m) :
    ∀ i, (dpAt times cands expected gap m dp0 i).length = m := by
  intro i
  cases i with
  | zero => exact hdp0
  | succ i' =>
      show ((innerLoop _ _ _ _ _ _ _ _ _ _).map _).length = m
      rw [List.length_map]
      exact (innerLoop_spec times (dpAt times cands expected gap m dp0 i')
        gap (expected.getD (i' + 1) 0) cands m hs hm).1

theorem getD_map_fst (row : List (ℚ × ℤ)) (j : ℕ) (hj : j < row.length) :
    (row.map (·.1)).getD j 0 = (row.getD j (0, 0)).1 := by
  rw [List.getD_eq_getElem _ _ (by simpa using hj), List.getElem_map,
    List.getD_eq_getElem _ _ hj]

theorem getD_map_snd (row : List (ℚ × ℤ)) (j : ℕ) (hj : j < row.length) :
    (row.map (·.2)).getD j (-1) = (row.getD j (0, 0)).2 := by
  rw [List.getD_eq_getElem _ _ (by simpa using hj), List.getElem_map,
    List.getD_eq_getElem _ _ hj]

theorem dpAt_succ_getD (times : List ℚ) (cands : List Silence)
    (expected : List ℚ) (gap : ℚ) (m : ℕ) (dp0 : List ℚ)
    (hs : times.Pairwise (· ≤ ·)) (hm : m ≤ times.length)
    (i j : ℕ) (hj : j < m) :
    (dpAt times cands expected gap m dp0 (i + 1)).getD j 0 =
      ((innerLoop times (dpAt times cands expected gap m dp0 i)
        (expected.getD (i + 1) 0) gap cands m 0 0 INF (-1)).getD j (0, 0)).1 := by
  show ((innerLoop _ _ _ _ _ _ _ _ _ _).map _).getD j 0 = _
  rw [getD_map_fst]
  rw [(innerLoop_spec times (dpAt times cands expected gap m dp0 i) gap
    (expected.getD (i + 1) 0) cands m hs hm).1]
  exact hj

theorem backAt_succ_getD (times : List ℚ) (cands : List Silence)
    (expected : List ℚ) (gap : ℚ) (m : ℕ) (dp0 : List ℚ)
    (hs : times.Pairwise (· ≤ ·)) (hm : m ≤ times.length)
    (i j : ℕ) (hj : j < m) :
    (backAt times cands expected gap m dp0 (i + 1)).getD j (-1) =
      ((innerLoop times (dpAt times cands expected gap m dp0 i)
        (expected.getD (i + 1) 0) gap cands m 0 0 INF (-1)).getD j (0, 0)).2 := by
  show ((innerLoop _ _ _ _ _ _ _ _ _ _).map _).getD j (-1) = _
  rw [getD_map_snd]
  rw [(innerLoop_spec times (dpAt times cands expected gap m dp0 i) gap
    (expected.getD (i + 1) 0) cands m hs hm).1]
  exact hj

/-- The DP rows under-approximate every chain whose prefix costs all stay
below the `INF` sentinel. -/
theorem dp_under (times : List ℚ) (cands : List Silence) (expected : List ℚ)
    (gap : ℚ) (m : ℕ) (dp0 : List ℚ)
    (hs : times.Pairwise (· ≤ ·)) (hm : m ≤ times.length)
    (hdp0 : ∀ j < m, dp0.getD j 0 =
      boundary_cost (expected.getD 0 0) (cands.getD j default))
    (idxs : List ℕ) :
    ∀ i, (∀ t ≤ i, idxs.getD t 0 < m) →
    (∀ t < i, idxs.getD t 0 < idxs.getD (t + 1) 0 ∧
      times.getD (idxs.getD t 0) 0 ≤ times.getD (idxs.getD (t + 1) 0) 0 - gap) →
    (∀ t ≤ i, prefixCost expected cands idxs t < INF) →
    (dpAt times cands expected gap m dp0 i).getD (idxs.getD i 0) 0 ≤
      prefixCost expected cands idxs i := by
  intro i
  induction i with
  | zero =>
      intro hmem _ _
      show dp0.getD (idxs.getD 0 0) 0 ≤ _
      rw [hdp0 _ (hmem 0 (le_refl 0))]
      exact le_refl _
  | succ i ih =>
      intro hmem hstep hpc
      have hih := ih (fun t ht => hmem t (by omega))
        (fun t ht => hstep t (by omega)) (fun t ht => hpc t (by omega))
      have hj : idxs.getD (i + 1) 0 < m := hmem (i + 1) (le_refl _)
      rw [dpAt_succ_getD times cands expected gap m dp0 hs hm i _ hj]
      have hentry := (innerLoop_spec times
        (dpAt times cands expected gap m dp0 i) gap (expected.getD (i + 1) 0)
        cands m hs hm).2 (idxs.getD (i + 1) 0) hj
      have hlt : (dpAt times cands expected gap m dp0 i).getD
          (idxs.getD i 0) 0 < INF :=
        lt_of_le_of_lt hih (hpc i (by omega))
      have h2 := hentry.2 (idxs.getD i 0) (hstep i (by omega)).1
        (hstep i (by omega)).2 hlt
      calc ((innerLoop times (dpAt times cands expected gap m dp0 i)
              (expected.getD (i + 1) 0) gap cands m 0 0 INF
              (-1)).getD (idxs.getD (i + 1) 0) (0, 0)).1
          ≤ (dpAt times cands expected gap m dp0 i).getD (idxs.getD i 0) 0 +
              boundary_cost (expected.getD (i + 1) 0)
                (cands.getD (idxs.getD (i + 1) 0) default) := h2
        _ ≤ prefixCost expected cands idxs i +
              boundary_cost (expected.getD (i + 1) 0)
                (cands.getD (idxs.getD (i + 1) 0) default) := by linarith
        _ = prefixCost expected cands idxs (i + 1) := rfl


theorem getD_map_range {A : Type} (f : ℕ → A) (d : A) (K t : ℕ) (ht : t < K) :
    ((List.range K).map f).getD t d = f t := by
  rw [List.getD_eq_getElem _ _ (by simpa using ht), List.getElem_map,
    List.getElem_range]

theorem argminAux_go (l : List ℚ) :
    ∀ (fuel s bj : ℕ), l.length - s ≤ fuel → bj < l.length → s ≤ l.length →
    (∀ u < s, l.getD bj 0 ≤ l.getD u 0) →
    argminAux (l.drop s) s bj (l.getD bj 0) < l.length ∧
    ∀ u < l.length,
      l.getD (argminAux (l.drop s) s bj (l.getD bj 0)) 0 ≤ l.getD u 0 := by
  intro fuel
  induction fuel with
  | zero =>
      intro s bj hf hbj hsl hu
      have hse : s = l.length := by omega
      subst hse
      rw [List.drop_length]
      exact ⟨hbj, hu⟩
  | succ f ih =>
      intro s bj hf hbj hsl hu
      by_cases hsl2 : s < l.length
      · have hgs : l.getD s 0 = l[s] := List.getD_eq_getElem l 0 hsl2
        have hunfold : argminAux (l.drop s) s bj (l.getD bj 0) =
            if l[s] < l.getD bj 0 then
              argminAux (l.drop (s + 1)) (s + 1) s l[s]
            else argminAux (l.drop (s + 1)) (s + 1) bj (l.getD bj 0) := by
          rw [List.drop_eq_getElem_cons hsl2, argminAux]
        by_cases hlt : l[s] < l.getD bj 0
        · rw [hunfold, if_pos hlt, ← hgs]
          refine ih (s + 1) s (by omega) hsl2 (by omega) ?_
          intro u hus
          rw [hgs]
          by_cases hus2 : u < s
          · exact le_trans (le_of_lt hlt) (hu u hus2)
          · have : u = s := by omega
            subst this
            rw [hgs]
        · rw [hunfold, if_neg hlt]
          refine ih (s + 1) bj (by omega) hbj (by omega) ?_
          intro u hus
          by_cases hus2 : u < s
          · exact hu u hus2
          · have : u = s := by omega
            subst this
            rw [hgs]
            exact le_of_not_lt hlt
      · have hse : s = l.length := by omega
        subst hse
        rw [List.drop_length]
        exact ⟨hbj, hu⟩

theorem argminIdx_spec (l : List ℚ) (hne : l ≠ []) :
    argminIdx l < l.length ∧
    ∀ u < l.length, l.getD (argminIdx l) 0 ≤ l.getD u 0 := by
  cases l with
  | nil => exact absurd rfl hne
  | cons v rest =>
      have h := argminAux_go (v :: rest) ((v :: rest).length - 1) 1 0
        (le_refl _) (by simp) (by simp)
        (fun u hu => by
          have : u = 0 := by omega
          subst this
          exact le_refl _)
      exact h

/-- Soundness of the backtracking pass: a successfully backtracked chain is
valid, ends at the requested index, and its prefix cost equals the DP value
at that index. -/
theorem backtrack_spec (times : List ℚ) (cands : List Silence)
    (expected : List ℚ) (gap : ℚ) (m n : ℕ) (dp0 : List ℚ)
    (hs : times.Pairwise (· ≤ ·)) (hm : m ≤ times.length)
    (hdp0 : ∀ j < m, dp0.getD j 0 =
      boundary_cost (expected.getD 0 0) (cands.getD j default))
    (back : List (List ℤ))
    (hback : ∀ i, 1 ≤ i → i ≤ n - 1 →
      back.getD i [] = backAt times cands expected gap m dp0 i) :
    ∀ i, i ≤ n - 1 → ∀ j, j < m → ∀ idxs,
    backtrack back i j = some idxs →
    idxs.length = i + 1 ∧ idxs.getD i 0 = j ∧
    (∀ t ≤ i, idxs.getD t 0 < m) ∧
    (∀ t < i, idxs.getD t 0 < idxs.getD (t + 1) 0 ∧
      times.getD (idxs.getD t 0) 0 ≤
        times.getD (idxs.getD (t + 1) 0) 0 - gap) ∧
    (dpAt times cands expected gap m dp0 i).getD j 0 =
      prefixCost expected cands idxs i := by
  intro i
  induction i with
  | zero =>
      intro hin j hj idxs hbt
      rw [backtrack] at hbt
      injection hbt with hbt
      subst hbt
      refine ⟨rfl, rfl, ?_, ?_, ?_⟩
      · intro t ht
        have : t = 0 := by omega
        subst this
        exact hj
      · intro t ht
        exact absurd ht (by omega)
      · show dp0.getD j 0 = _
        rw [hdp0 j hj]
        rfl
  | succ i ih =>
      intro hin j hj idxs hbt
      rw [backtrack] at hbt
      rw [hback (i + 1) (by omega) hin] at hbt
      set jn := (backAt times cands expected gap m dp0 (i + 1)).getD j (-1)
        with hjn
      by_cases hneg : jn < 0
      · rw [if_pos hneg] at hbt
        exact absurd hbt (by simp)
      · rw [if_neg hneg] at hbt
        rcases Option.map_eq_some'.mp hbt with ⟨l, hl, rfl⟩
        -- the back pointer is a sound predecessor
        have hrow := backAt_succ_getD times cands expected gap m dp0 hs hm i j hj
        rw [← hjn] at hrow
        have hentry := (innerLoop_spec times
          (dpAt times cands expected gap m dp0 i) gap
          (expected.getD (i + 1) 0) cands m hs hm).2 j hj
        have hne : ((innerLoop times (dpAt times cands expected gap m dp0 i)
            (expected.getD (i + 1) 0) gap cands m 0 0 INF
            (-1)).getD j (0, 0)).2 ≠ -1 := by
          rw [← hrow]
          omega
        obtain ⟨-, hlt, htrel, hval⟩ := hentry.1 hne
        rw [← hrow] at hlt htrel hval
        have hjnm : jn.toNat < m := by omega
        obtain ⟨hlen, hend, hmem, hstep, hcost⟩ :=
          ih (by omega) jn.toNat hjnm l hl
        have hgl : ∀ t ≤ i, (l ++ [j]).getD t 0 = l.getD t 0 := by
          intro t ht
          exact List.getD_append l [j] 0 t (by omega)
        have hgend : (l ++ [j]).getD (i + 1) 0 = j := by
          rw [List.getD_append_right l [j] 0 (i + 1) (by omega), hlen]
          simp
        refine ⟨by simp [hlen], hgend, ?_, ?_, ?_⟩
        · intro t ht
          by_cases hti : t ≤ i
          · rw [hgl t hti]
            exact hmem t hti
          · have : t = i + 1 := by omega
            subst this
            rw [hgend]
            exact hj
        · intro t ht
          by_cases hti : t < i
          · rw [hgl t (by omega), hgl (t + 1) (by omega)]
            exact hstep t hti
          · have : t = i := by omega
            subst this
            rw [hgl t (le_refl _), hgend, hend]
            exact ⟨hlt, htrel⟩
        · rw [dpAt_succ_getD times cands expected gap m dp0 hs hm i j hj, hval,
            hcost]
          show _ = prefixCost expected cands (l ++ [j]) i +
            boundary_cost (expected.getD (i + 1) 0)
              (cands.getD ((l ++ [j]).getD (i + 1) 0) default)
          rw [hgend,
            prefixCost_congr expected cands i (fun t ht => (hgl t ht).symm)]


theorem foldl_add_sum {A : Type} (g : A → ℚ) :
    ∀ (l : List A) (a : ℚ),
    l.foldl (fun acc p => acc + g p) a = a + (l.map g).sum := by
  intro l
  induction l with
  | nil => intro a; simp
  | cons x xs ih =>
      intro a
      rw [List.foldl_cons, ih, List.map_cons, List.sum_cons]
      ring

theorem zip_eq_range_map :
    ∀ (expected : List ℚ) (idxs : List ℕ), expected.length = idxs.length →
    expected.zip idxs =
      (List.range expected.length).map
        (fun t => (expected.getD t 0, idxs.getD t 0)) := by
  intro expected
  induction expected with
  | nil =>
      intro idxs h
      simp
  | cons e es ih =>
      intro idxs h
      cases idxs with
      | nil => simp at h
      | cons i is =>
          rw [List.zip_cons_cons, List.length_cons, List.range_succ_eq_map,
            List.map_cons, List.map_map, ih is (by simpa using h)]
          rfl

theorem prefixCost_eq_sum (expected : List ℚ) (cands : List Silence)
    (idxs : List ℕ) :
    ∀ t, prefixCost expected cands idxs t =
      ((List.range (t + 1)).map
        (fun u => boundary_cost (expected.getD u 0)
          (cands.getD (idxs.getD u 0) default))).sum := by
  intro t
  induction t with
  | zero =>
      rw [prefixCost]
      simp [List.range_succ]
  | succ t ih =>
      rw [List.range_succ, List.map_append, List.sum_append, prefixCost, ih]
      simp

theorem chainCost_eq_prefixCost (expected : List ℚ) (cands : List Silence)
    (idxs : List ℕ) (n : ℕ) (hn : 1 ≤ n) (he : expected.length = n)
    (hi : idxs.length = n) :
    chainCost expected cands idxs = prefixCost expected cands idxs (n - 1) := by
  obtain ⟨t, rfl⟩ : ∃ t, n = t + 1 := ⟨n - 1, by omega⟩
  rw [chainCost, zip_eq_range_map expected idxs (by omega), he,
    foldl_add_sum, zero_add, List.map_map, prefixCost_eq_sum]
  have ht : t + 1 - 1 = t := by omega
  rw [ht]
  congr 1

/-- The midpoints of the mergeSort-sorted candidate list are nondecreasing. -/
theorem times_sorted (candidates : List Silence) :
    ((candidates.mergeSort (fun a b => a.mid ≤ b.mid)).map
      Silence.mid).Pairwise (fun a b => a ≤ b) := by
  rw [List.pairwise_map]
  refine (List.sorted_mergeSort ?_ ?_ candidates).imp ?_
  · intro a b c h1 h2
    simp only [decide_eq_true_eq] at *
    exact le_trans h1 h2
  · intro a b
    simpa using le_total a.mid b.mid
  · intro a b h
    exact of_decide_eq_true h

/-- The sorted candidate list used internally by `choose_boundaries_dp`. -/
def sortedCands (candidates : List Silence) : List Silence :=
  candidates.mergeSort (fun a b => a.mid ≤ b.mid)

/-- The evenly spaced expected boundary times of `choose_boundaries_dp`. -/
def expectedTimes (total_duration : ℚ) (verse_count : ℕ) : List ℚ :=
  (List.range (verse_count - 1)).map
    (fun i => ((Nat.cast i : ℚ) + 1) * total_duration / (verse_count : ℚ))


theorem times_getD (cands : List Silence) (a : ℕ) (ha : a < cands.length) :
    (cands.map Silence.mid).getD a 0 = (cands.getD a default).mid := by
  rw [List.getD_eq_getElem _ _ (by simpa using ha), List.getElem_map,
    List.getD_eq_getElem _ _ ha]

/-- C2 (amended): `choose_boundaries_dp` errors when fewer than
`verse_count - 1` candidates are given; any returned list has exactly
`verse_count - 1` silences in chronological order with consecutive
midpoints at least `min_gap_s` apart, and it realizes a valid chain of
sorted-candidate indices that minimizes the total `_boundary_cost` among
all valid chains every one of whose prefix cost-sums stays below the DP's
`INF = 1e18` sentinel (the unrestricted optimality claim is refuted by
`C2_counterexample`). -/
theorem C2_choose_boundaries_dp (candidates : List Silence)
    (total_duration : ℚ) (verse_count : ℕ) (min_gap_s : ℚ) :
    (candidates.length < verse_count - 1 →
      choose_boundaries_dp candidates total_duration verse_count min_gap_s =
        Except.error "Not enough candidate silences") ∧
    (∀ chosen,
      choose_boundaries_dp candidates total_duration verse_count min_gap_s =
        Except.ok chosen →
      chosen.length = verse_count - 1 ∧
      chosen.Chain' (fun a b => a.mid ≤ b.mid ∧ a.mid ≤ b.mid - min_gap_s) ∧
      ∃ idxs,
        ValidChain ((sortedCands candidates).map Silence.mid) min_gap_s
          (verse_count - 1) idxs ∧
        chosen = idxs.map (fun t => (sortedCands candidates).getD t default) ∧
        ∀ idxs2,
          ValidChain ((sortedCands candidates).map Silence.mid) min_gap_s
            (verse_count - 1) idxs2 →
          (∀ t < verse_count - 1,
            prefixCost (expectedTimes total_duration verse_count)
              (sortedCands candidates) idxs2 t < INF) →
          chainCost (expectedTimes total_duration verse_count)
            (sortedCands candidates) idxs ≤
            chainCost (expectedTimes total_duration verse_count)
              (sortedCands candidates) idxs2) := by
  constructor
  · intro hlt
    rw [choose_boundaries_dp]
    rw [if_neg (by omega)]
    rw [if_pos hlt]
  · intro chosen hok
    simp only [sortedCands, expectedTimes]
    rw [choose_boundaries_dp] at hok
    by_cases hn0 : verse_count - 1 = 0
    · rw [if_pos hn0] at hok
      injection hok with h
      subst h
      refine ⟨by simpa using hn0.symm, List.chain'_nil, [],
        ⟨by simpa using hn0.symm, ?_, ?_⟩, rfl, ?_⟩
      · intro x hx
        simp at hx
      · exact List.chain'_nil
      · intro idxs2 hv2 hpc2
        have h2 : idxs2 = [] := List.eq_nil_of_length_eq_zero
          (by rw [hv2.1]; omega)
        subst h2
        exact le_refl _
    · rw [if_neg hn0] at hok
      by_cases hlen : candidates.length < verse_count - 1
      · rw [if_pos hlen] at hok
        exact absurd hok (by simp)
      · rw [if_neg hlen] at hok
        dsimp only at hok
        set n := verse_count - 1 with hne2
        set cands := candidates.mergeSort (fun a b => a.mid ≤ b.mid)
          with hcands
        set times := cands.map Silence.mid with htimese
        set expected := (List.range n).map
          (fun i => ((Nat.cast i : ℚ) + 1) * total_duration /
            (verse_count : ℚ)) with hexpe
        set m := cands.length with hme
        set dp0 := (List.range m).map
          (fun j => boundary_cost (expected.getD 0 0) (cands.getD j default))
          with hdp0e
        set res := runLayers times cands expected min_gap_s m n 1 dp0
          with hrese
        set jend := argminIdx res.1 with hjende
        set back := List.replicate m (-1 : ℤ) :: res.2 with hbacke
        have hn1 : 1 ≤ n := by omega
        have hnlen : n ≤ candidates.length := by omega
        have hsorted : times.Pairwise (fun a b => a ≤ b) := by
          rw [htimese, hcands]
          exact times_sorted candidates
        have hmcand : m = candidates.length := by
          rw [hme, hcands]
          simp
        have htimeslen : times.length = m := by
          rw [htimese, List.length_map, hme]
        have hmlen : m ≤ times.length := le_of_eq htimeslen.symm
        have hm1 : 1 ≤ m := by omega
        have hdp0spec : ∀ j < m, dp0.getD j 0 =
            boundary_cost (expected.getD 0 0) (cands.getD j default) := by
          intro j hj
          rw [hdp0e]
          exact getD_map_range _ _ m j hj
        have hdp0len : dp0.length = m := by
          rw [hdp0e]
          simp
        have hresspec : res =
            (dpAt times cands expected min_gap_s m dp0 (n - 1),
             (List.range (n - 1)).map
               (fun s => backAt times cands expected min_gap_s m dp0
                 (1 + s))) := by
          rw [hrese]
          exact runLayers_spec times cands expected min_gap_s m n dp0 hn1
        have hres1 : res.1 = dpAt times cands expected min_gap_s m dp0
            (n - 1) := by rw [hresspec]
        have hdplen : res.1.length = m := by
          rw [hres1]
          exact dpAt_length times cands expected min_gap_s m dp0 hsorted
            hmlen hdp0len (n - 1)
        have hnil : res.1 ≠ [] := by
          intro hcon
          rw [hcon] at hdplen
          simp at hdplen
          omega
        have hjend := argminIdx_spec res.1 hnil
        have hjendm : jend < m := by
          rw [hjende, ← hdplen]
          exact hjend.1
        have hbackspec : ∀ i, 1 ≤ i → i ≤ n - 1 →
            back.getD i [] =
              backAt times cands expected min_gap_s m dp0 i := by
          intro i h1 h2
          obtain ⟨i2, rfl⟩ : ∃ i2, i = i2 + 1 := ⟨i - 1, by omega⟩
          rw [hbacke, List.getD_cons_succ]
          have hr2 : res.2 = (List.range (n - 1)).map
              (fun s => backAt times cands expected min_gap_s m dp0
                (1 + s)) := by rw [hresspec]
          rw [hr2, getD_map_range _ _ (n - 1) i2 (by omega)]
          have he : 1 + i2 = i2 + 1 := by omega
          rw [he]
        by_cases hguard : res.1.getD jend 0 ≥ INF / 2
        · rw [if_pos hguard] at hok
          exact absurd hok (by simp)
        · rw [if_neg hguard] at hok
          cases hbt : backtrack back (n - 1) jend with
          | none =>
              rw [hbt] at hok
              exact absurd hok (by simp)
          | some idxs =>
              rw [hbt] at hok
              injection hok with hchosen
              subst hchosen
              obtain ⟨hilen, hiend, himem, histep, hicost⟩ :=
                backtrack_spec times cands expected min_gap_s m n dp0 hsorted
                  hmlen hdp0spec back hbackspec (n - 1) (le_refl _) jend
                  hjendm idxs hbt
              have hilen2 : idxs.length = n := by omega
              have hgetDa : ∀ t, t < idxs.length →
                  ∀ h : t < idxs.length, idxs.get ⟨t, h⟩ = idxs.getD t 0 := by
                intro t ht h
                rw [List.get_eq_getElem, List.getD_eq_getElem idxs 0 ht]
              have htD : ∀ a, a < m →
                  times.getD a 0 = (cands.getD a default).mid := by
                intro a ha
                rw [htimese]
                exact times_getD cands a (by omega)
              refine ⟨by rw [List.length_map, hilen2], ?_, idxs,
                ⟨hilen2, ?_, ?_⟩, rfl, ?_⟩
              · rw [List.chain'_map, List.chain'_iff_get]
                intro i h
                have hi1 : i < n - 1 := by omega
                have hstepi := histep i hi1
                have ham : idxs.getD i 0 < m := himem i (by omega)
                have hbm : idxs.getD (i + 1) 0 < m := himem (i + 1) (by omega)
                rw [hgetDa i (by omega) _, hgetDa (i + 1) (by omega) _]
                constructor
                · rw [← htD _ ham, ← htD _ hbm]
                  exact sorted_getD hsorted (le_of_lt hstepi.1) (by omega)
                · rw [← htD _ ham, ← htD _ hbm]
                  linarith [hstepi.2]
              · intro x hx
                obtain ⟨t, ht, rfl⟩ := List.mem_iff_getElem.mp hx
                have hg : idxs[t] = idxs.getD t 0 :=
                  (List.getD_eq_getElem idxs 0 ht).symm
                rw [hg]
                have := himem t (by omega)
                omega
              · rw [List.chain'_iff_get]
                intro i h
                have hstepi := histep i (by omega)
                rw [hgetDa i (by omega) _, hgetDa (i + 1) (by omega) _]
                exact hstepi
              · intro idxs2 hv2 hpc2
                obtain ⟨hv2len, hv2mem, hv2chain⟩ := hv2
                have hexplen : expected.length = n := by
                  rw [hexpe]
                  simp
                have hmem2 : ∀ t ≤ n - 1, idxs2.getD t 0 < m := by
                  intro t ht
                  have htl : t < idxs2.length := by omega
                  rw [List.getD_eq_getElem idxs2 0 htl]
                  have := hv2mem idxs2[t] (List.getElem_mem htl)
                  omega
                have hstep2 : ∀ t < n - 1, idxs2.getD t 0 <
                    idxs2.getD (t + 1) 0 ∧
                    times.getD (idxs2.getD t 0) 0 ≤
                      times.getD (idxs2.getD (t + 1) 0) 0 - min_gap_s := by
                  intro t ht
                  rw [List.chain'_iff_get] at hv2chain
                  have h1 : t < idxs2.length := by omega
                  have h2 : t + 1 < idxs2.length := by omega
                  have := hv2chain t (by omega)
                  rw [List.get_eq_getElem, List.get_eq_getElem,
                    ← List.getD_eq_getElem idxs2 0 h1,
                    ← List.getD_eq_getElem idxs2 0 h2] at this
                  exact this
                have hpc2b : ∀ t ≤ n - 1,
                    prefixCost expected cands idxs2 t < INF :=
                  fun t ht => hpc2 t (by omega)
                have hunder := dp_under times cands expected min_gap_s m dp0
                  hsorted hmlen hdp0spec idxs2 (n - 1) hmem2 hstep2 hpc2b
                have hmin : (dpAt times cands expected min_gap_s m dp0
                    (n - 1)).getD jend 0 ≤
                    (dpAt times cands expected min_gap_s m dp0 (n - 1)).getD
                      (idxs2.getD (n - 1) 0) 0 := by
                  have h := hjend.2 (idxs2.getD (n - 1) 0)
                    (by rw [hdplen]; exact hmem2 (n - 1) (le_refl _))
                  rw [← hjende, hres1] at h
                  exact h
                rw [chainCost_eq_prefixCost expected cands idxs n hn1 hexplen
                    hilen2,
                  chainCost_eq_prefixCost expected cands idxs2 n hn1 hexplen
                    hv2len, ← hicost]
                exact le_trans hmin hunder


theorem C2_choose_boundaries_dp_witness :
    choose_boundaries_dp [(⟨8, 13, 2⟩ : Silence)] 29 2 0 =
      Except.ok [(⟨8, 13, 2⟩ : Silence)] ∧
    ([(⟨8, 13, 2⟩ : Silence)] : List Silence).length = 2 - 1 := by
  have heval : choose_boundaries_dp [(⟨8, 13, 2⟩ : Silence)] 29 2 0 =
      Except.ok [(⟨8, 13, 2⟩ : Silence)] := by
    rw [choose_boundaries_dp]
    rw [if_neg (by norm_num)]
    rw [if_neg (by simp)]
    dsimp only
    rw [show ([(⟨8, 13, 2⟩ : Silence)] : List Silence).mergeSort
        (fun a b => a.mid ≤ b.mid) = [(⟨8, 13, 2⟩ : Silence)] from
      List.mergeSort_of_sorted (by simp)]
    rw [show (2 : ℕ) - 1 = 1 from rfl]
    rw [runLayers, if_neg (show ¬ (1 < 1) from by norm_num)]
    dsimp only
    rw [show ([(⟨8, 13, 2⟩ : Silence)] : List Silence).length = 1 from rfl]
    rw [show List.range 1 = [0] from rfl]
    norm_num [argminIdx, argminAux, INF, backtrack, boundary_cost,
      Silence.mid, List.getD]
  exact ⟨heval,
    ((C2_choose_boundaries_dp [(⟨8, 13, 2⟩ : Silence)] 29 2 0).2
      [(⟨8, 13, 2⟩ : Silence)] heval).1⟩

end TanakhSplitter


/-! ## `sqlserver_security_suite_xlsx.py`: DENY/GRANT conflict detection -/

namespace SqlSecurity

/-- Python `str.lower()` (ASCII case folding), evaluated per character. -/
def lower (s : String) : String := String.mk (s.data.map Char.toLower)

/-- A database permission row as produced by `load_db_permissions_df`. -/
structure DbPerm where
  RoleName : String
  State : String
  Scope : String
  SchemaName : Option String
  ObjectName : Option String
  Permission : String
  WithGrantOption : Bool

/-- A server permission row as produced by `load_server_permissions_df`. -/
structure SrvPerm where
  LoginName : String
  State : String
  Scope : String
  EndpointName : Option String
  AGName : Option String
  Permission : String

/-- The body of the `for g in grants` loop of `detect_db_deny_conflicts`:
at most one note per grant, tested against the three deny key sets in
order (`if` / `elif` / `elif`). -/
def dbNoteFor (denies : List DbPerm) (g : DbPerm) : Option String :=
  if denies.any (fun d => d.Scope == "DATABASE"
      && lower d.RoleName == lower g.RoleName
      && d.Permission == g.Permission) then
    some ("DB DENY overrides GRANT: Role=" ++ g.RoleName ++ ", Perm="
      ++ g.Permission ++ ", GrantScope=" ++ g.Scope ++ ".")
  else if (g.Scope == "SCHEMA" || g.Scope == "OBJECT")
      && denies.any (fun d => d.Scope == "SCHEMA"
        && lower d.RoleName == lower g.RoleName
        && d.Permission == g.Permission
        && lower (d.SchemaName.getD "") == lower (g.SchemaName.getD ""))
      then
    some ("SCHEMA DENY overrides GRANT: Role=" ++ g.RoleName ++ ", Schema="
      ++ g.SchemaName.getD "" ++ ", Perm=" ++ g.Permission ++ ", GrantScope="
      ++ g.Scope ++ ".")
  else if g.Scope == "OBJECT"
      && denies.any (fun d => d.Scope == "OBJECT"
        && lower d.RoleName == lower g.RoleName
        && d.Permission == g.Permission
        && lower (d.SchemaName.getD "") == lower (g.SchemaName.getD "")
        && lower (d.ObjectName.getD "") == lower (g.ObjectName.getD ""))
      then
    some ("OBJECT DENY overrides GRANT: Role=" ++ g.RoleName ++ ", Obj="
      ++ g.SchemaName.getD "" ++ "." ++ g.ObjectName.getD "" ++ ", Perm="
      ++ g.Permission ++ ".")
  else none

/-- `detect_db_deny_conflicts`. -/
def detect_db_deny_conflicts (db_perms : List DbPerm) : List String :=
  (db_perms.filter (fun p => p.State == "GRANT")).filterMap
    (dbNoteFor (db_perms.filter (fun p => p.State == "DENY")))

/-- The body of the `for g in grants` loop of
`detect_server_deny_conflicts`. -/
def srvNoteFor (denies : List SrvPerm) (g : SrvPerm) : Option String :=
  if g.Scope == "SERVER" && denies.any (fun d => d.Scope == "SERVER"
      && lower d.LoginName == lower g.LoginName
      && d.Permission == g.Permission) then
    some ("SERVER DENY overrides GRANT: Login=" ++ g.LoginName ++ ", Perm="
      ++ g.Permission ++ ".")
  else if g.Scope == "ENDPOINT" && denies.any (fun d => d.Scope == "ENDPOINT"
      && lower d.LoginName == lower g.LoginName
      && d.Permission == g.Permission
      && lower (d.EndpointName.getD "")
        == lower (g.EndpointName.getD "")) then
    some ("ENDPOINT DENY overrides GRANT: Login=" ++ g.LoginName ++ ", EP="
      ++ g.EndpointName.getD "" ++ ", Perm=" ++ g.Permission ++ ".")
  else if g.Scope == "AVAILABILITY_GROUP"
      && denies.any (fun d => d.Scope == "AVAILABILITY_GROUP"
        && lower d.LoginName == lower g.LoginName
        && d.Permission == g.Permission
        && lower (d.AGName.getD "") == lower (g.AGName.getD "")) then
    some ("AG DENY overrides GRANT: Login=" ++ g.LoginName ++ ", AG="
      ++ g.AGName.getD "" ++ ", Perm=" ++ g.Permission ++ ".")
  else none

/-- `detect_server_deny_conflicts`. -/
def detect_server_deny_conflicts (sp : List SrvPerm) : List String :=
  (sp.filter (fun r => r.State == "GRANT")).filterMap
    (srvNoteFor (sp.filter (fun r => r.State == "DENY")))

/-- The claim's domination relation for database permissions: the input
list contains a DENY with case-insensitively matching role name and equal
permission that dominates the grant at DATABASE, SCHEMA or OBJECT scope
(schema and object names compared case-insensitively, as SQL Server
identifiers). -/
def DbDominated (perms : List DbPerm) (g : DbPerm) : Prop :=
  ∃ d ∈ perms, d.State = "DENY"
    ∧ lower d.RoleName = lower g.RoleName
    ∧ d.Permission = g.Permission
    ∧ (d.Scope = "DATABASE"
      ∨ (d.Scope = "SCHEMA" ∧ (g.Scope = "SCHEMA" ∨ g.Scope = "OBJECT")
        ∧ lower (d.SchemaName.getD "") = lower (g.SchemaName.getD ""))
      ∨ (d.Scope = "OBJECT" ∧ g.Scope = "OBJECT"
        ∧ lower (d.SchemaName.getD "") = lower (g.SchemaName.getD "")
        ∧ lower (d.ObjectName.getD "") = lower (g.ObjectName.getD "")))

/-- The claim's domination relation for server permissions, keyed by login
name, for SERVER, ENDPOINT and AVAILABILITY_GROUP scopes. -/
def SrvDominated (perms : List SrvPerm) (g : SrvPerm) : Prop :=
  ∃ d ∈ perms, d.State = "DENY"
    ∧ lower d.LoginName = lower g.LoginName
    ∧ d.Permission = g.Permission
    ∧ ((g.Scope = "SERVER" ∧ d.Scope = "SERVER")
      ∨ (g.Scope = "ENDPOINT" ∧ d.Scope = "ENDPOINT"
        ∧ lower (d.EndpointName.getD "")
          = lower (g.EndpointName.getD ""))
      ∨ (g.Scope = "AVAILABILITY_GROUP" ∧ d.Scope = "AVAILABILITY_GROUP"
        ∧ lower (d.AGName.getD "") = lower (g.AGName.getD "")))

instance (perms : List DbPerm) (g : DbPerm) :
    Decidable (DbDominated perms g) :=
  List.decidableBEx _ perms

instance (perms : List SrvPerm) (g : SrvPerm) :
    Decidable (SrvDominated perms g) :=
  List.decidableBEx _ perms

theorem isSome_ite3 {B : Type} (b1 b2 b3 : Bool) (x y z : B) :
    (if b1 then some x else if b2 then some y
      else if b3 then some z else none).isSome = (b1 || b2 || b3) := by
  cases b1 <;> cases b2 <;> cases b3 <;> simp

theorem dbNoteFor_isSome (db_perms : List DbPerm) (g : DbPerm) :
    (dbNoteFor (db_perms.filter (fun p => p.State == "DENY")) g).isSome =
      true ↔ DbDominated db_perms g := by
  rw [dbNoteFor, isSome_ite3, DbDominated]
  simp only [Bool.or_eq_true, Bool.and_eq_true, List.any_eq_true,
    List.mem_filter, beq_iff_eq]
  constructor
  · rintro ((⟨d, ⟨hd, hst⟩, ⟨hsc, hr⟩, hp⟩ |
      ⟨hgs, d, ⟨hd, hst⟩, ⟨⟨hsc, hr⟩, hp⟩, hsch⟩) |
      ⟨hgs, d, ⟨hd, hst⟩, ⟨⟨⟨hsc, hr⟩, hp⟩, hsch⟩, hobj⟩)
    · exact ⟨d, hd, hst, hr, hp, Or.inl hsc⟩
    · exact ⟨d, hd, hst, hr, hp, Or.inr (Or.inl ⟨hsc, hgs, hsch⟩)⟩
    · exact ⟨d, hd, hst, hr, hp, Or.inr (Or.inr ⟨hsc, hgs, hsch, hobj⟩)⟩
  · rintro ⟨d, hd, hst, hr, hp,
      (hsc | ⟨hsc, hgs, hsch⟩ | ⟨hsc, hgs, hsch, hobj⟩)⟩
    · exact Or.inl (Or.inl ⟨d, ⟨hd, hst⟩, ⟨hsc, hr⟩, hp⟩)
    · exact Or.inl (Or.inr ⟨hgs, d, ⟨hd, hst⟩, ⟨⟨hsc, hr⟩, hp⟩, hsch⟩)
    · exact Or.inr ⟨hgs, d, ⟨hd, hst⟩, ⟨⟨⟨hsc, hr⟩, hp⟩, hsch⟩, hobj⟩

theorem srvNoteFor_isSome (sp : List SrvPerm) (g : SrvPerm) :
    (srvNoteFor (sp.filter (fun r => r.State == "DENY")) g).isSome =
      true ↔ SrvDominated sp g := by
  rw [srvNoteFor, isSome_ite3, SrvDominated]
  simp only [Bool.or_eq_true, Bool.and_eq_true, List.any_eq_true,
    List.mem_filter, beq_iff_eq]
  constructor
  · rintro ((⟨hgs, d, ⟨hd, hst⟩, ⟨hsc, hl⟩, hp⟩ |
      ⟨hgs, d, ⟨hd, hst⟩, ⟨⟨hsc, hl⟩, hp⟩, hep⟩) |
      ⟨hgs, d, ⟨hd, hst⟩, ⟨⟨hsc, hl⟩, hp⟩, hag⟩)
    · exact ⟨d, hd, hst, hl, hp, Or.inl ⟨hgs, hsc⟩⟩
    · exact ⟨d, hd, hst, hl, hp, Or.inr (Or.inl ⟨hgs, hsc, hep⟩)⟩
    · exact ⟨d, hd, hst, hl, hp, Or.inr (Or.inr ⟨hgs, hsc, hag⟩)⟩
  · rintro ⟨d, hd, hst, hl, hp,
      (⟨hgs, hsc⟩ | ⟨hgs, hsc, hep⟩ | ⟨hgs, hsc, hag⟩)⟩
    · exact Or.inl (Or.inl ⟨hgs, d, ⟨hd, hst⟩, ⟨hsc, hl⟩, hp⟩)
    · exact Or.inl (Or.inr ⟨hgs, d, ⟨hd, hst⟩, ⟨⟨hsc, hl⟩, hp⟩, hep⟩)
    · exact Or.inr ⟨hgs, d, ⟨hd, hst⟩, ⟨⟨hsc, hl⟩, hp⟩, hag⟩

/-- C3: `detect_db_deny_conflicts` emits, among the GRANT rows of its
input, exactly one note for each grant with a dominating DENY (DATABASE
scope with same permission; SCHEMA scope with same permission and schema
for SCHEMA/OBJECT grants; OBJECT scope with same permission, schema and
object for OBJECT grants; role names compared case-insensitively), and no
note for any other row; `detect_server_deny_conflicts` satisfies the
analogous per-scope property for SERVER, ENDPOINT and AVAILABILITY_GROUP
keyed by login name. -/
theorem C3_deny_conflicts (db_perms : List DbPerm) (sp : List SrvPerm) :
    ((∀ g ∈ db_perms.filter (fun p => p.State == "GRANT"),
        (dbNoteFor (db_perms.filter (fun p => p.State == "DENY"))
          g).isSome = true ↔ DbDominated db_perms g)
      ∧ (detect_db_deny_conflicts db_perms).length =
        (db_perms.filter (fun p => p.State == "GRANT")).countP
          (fun g => decide (DbDominated db_perms g)))
    ∧ (∀ g ∈ sp.filter (fun r => r.State == "GRANT"),
        (srvNoteFor (sp.filter (fun r => r.State == "DENY"))
          g).isSome = true ↔ SrvDominated sp g)
      ∧ (detect_server_deny_conflicts sp).length =
        (sp.filter (fun r => r.State == "GRANT")).countP
          (fun g => decide (SrvDominated sp g)) := by
  refine ⟨⟨fun g _ => dbNoteFor_isSome db_perms g, ?_⟩,
    fun g _ => srvNoteFor_isSome sp g, ?_⟩
  · rw [detect_db_deny_conflicts, List.length_filterMap_eq_countP]
    refine List.countP_congr ?_
    intro g _
    rw [dbNoteFor_isSome db_perms g]
    simp
  · rw [detect_server_deny_conflicts, List.length_filterMap_eq_countP]
    refine List.countP_congr ?_
    intro g _
    rw [srvNoteFor_isSome sp g]
    simp

theorem C3_deny_conflicts_witness :
    (detect_db_deny_conflicts
      [⟨"r", "GRANT", "DATABASE", none, none, "SELECT", false⟩,
       ⟨"R", "DENY", "DATABASE", none, none, "SELECT", false⟩]).length = 1 ∧
    (detect_server_deny_conflicts ([] : List SrvPerm)).length = 0 := by
  have h := C3_deny_conflicts
    [⟨"r", "GRANT", "DATABASE", none, none, "SELECT", false⟩,
     ⟨"R", "DENY", "DATABASE", none, none, "SELECT", false⟩] []
  refine ⟨?_, ?_⟩
  · rw [h.1.2]
    decide
  · rw [h.2.2]
    decide

/-- Python `str.upper()` (ASCII case folding), evaluated per character. -/
def upper (s : String) : String := String.mk (s.data.map Char.toUpper)

/-- One spreadsheet row of the Permissions sheet after `norm` has been
applied to each cell (`state` already carries the `or "GRANT"` default,
`wgo` is the `as_bool` result). -/
structure RawRow where
  role : String
  state : String
  scope : String
  perm : String
  schema : String
  obj : String
  wgo : Bool

/-- `DB_ALLOWED_PERMS` (with `.get(scope, set())`). -/
def allowedPerms (scope : String) : List String :=
  if scope = "DATABASE" then
    ["CONNECT", "SELECT", "INSERT", "UPDATE", "DELETE",
     "ALTER ANY SCHEMA", "ALTER ANY USER", "CONTROL", "CONTROL DATABASE",
     "CREATE TABLE", "CREATE VIEW", "CREATE PROCEDURE", "CREATE FUNCTION",
     "VIEW DATABASE STATE", "VIEW DEFINITION"]
  else if scope = "SCHEMA" then
    ["SELECT", "INSERT", "UPDATE", "DELETE", "EXECUTE",
     "CONTROL", "ALTER", "REFERENCES", "VIEW DEFINITION"]
  else if scope = "OBJECT" then
    ["SELECT", "INSERT", "UPDATE", "DELETE", "EXECUTE",
     "REFERENCES", "CONTROL", "VIEW DEFINITION"]
  else []

/-- The de-duplication signature of a produced permission row. -/
abbrev Sig := String × String × String × String × String × String × Bool

def rowSig (p : DbPerm) : Sig :=
  (lower p.RoleName, p.State, p.Scope, lower (p.SchemaName.getD ""),
   lower (p.ObjectName.getD ""), p.Permission, p.WithGrantOption)

/-- The validation part of one `load_db_permissions_df` loop iteration:
`none` models a skipped (warned-about) row. -/
def checkRow (valid_roles : List String) (r : RawRow) : Option DbPerm :=
  if r.role = "" ∨ upper r.scope = "" ∨ upper r.perm = "" then none
  else if r.role ∉ valid_roles then none
  else if ¬(upper r.state = "GRANT" ∨ upper r.state = "DENY") then none
  else if ¬(upper r.scope = "DATABASE" ∨ upper r.scope = "SCHEMA" ∨
      upper r.scope = "OBJECT") then none
  else if (upper r.scope = "SCHEMA" ∨ upper r.scope = "OBJECT") ∧
      r.schema = "" then none
  else if upper r.scope = "OBJECT" ∧ r.obj = "" then none
  else if upper r.perm ∉ allowedPerms (upper r.scope) then none
  else some
    { RoleName := r.role, State := upper r.state, Scope := upper r.scope,
      SchemaName := if r.schema = "" then none else some r.schema,
      ObjectName := if r.obj = "" then none else some r.obj,
      Permission := upper r.perm,
      WithGrantOption :=
        if upper r.state = "DENY" ∧ r.wgo then false else r.wgo }

/-- The `for i, row in df.iterrows()` loop with its `seen` signature
set. -/
def loadDbLoop (valid_roles : List String) :
    List RawRow → List Sig → List DbPerm
  | [], _ => []
  | r :: rest, seen =>
      match checkRow valid_roles r with
      | none => loadDbLoop valid_roles rest seen
      | some p =>
          if rowSig p ∈ seen then loadDbLoop valid_roles rest seen
          else p :: loadDbLoop valid_roles rest (rowSig p :: seen)

/-- `load_db_permissions_df`. -/
def load_db_permissions_df (valid_roles : List String)
    (rows : List RawRow) : List DbPerm :=
  loadDbLoop valid_roles rows []

/-- The row invariant claimed for `load_db_permissions_df` output. -/
def PermInv (p : DbPerm) : Prop :=
  (p.State = "GRANT" ∨ p.State = "DENY") ∧
  (p.Scope = "DATABASE" ∨ p.Scope = "SCHEMA" ∨ p.Scope = "OBJECT") ∧
  ((p.Scope = "SCHEMA" ∨ p.Scope = "OBJECT") → p.SchemaName ≠ none) ∧
  (p.Scope = "OBJECT" → p.ObjectName ≠ none) ∧
  p.Permission ∈ allowedPerms p.Scope ∧
  (p.State = "DENY" → p.WithGrantOption = false)

theorem checkRow_inv (valid_roles : List String) (r : RawRow) (p : DbPerm)
    (h : checkRow valid_roles r = some p) : PermInv p := by
  rw [checkRow] at h
  by_cases h1 : r.role = "" ∨ upper r.scope = "" ∨ upper r.perm = ""
  · rw [if_pos h1] at h
    exact absurd h (by simp)
  rw [if_neg h1] at h
  by_cases h2 : r.role ∉ valid_roles
  · rw [if_pos h2] at h
    exact absurd h (by simp)
  rw [if_neg h2] at h
  by_cases h3 : ¬(upper r.state = "GRANT" ∨ upper r.state = "DENY")
  · rw [if_pos h3] at h
    exact absurd h (by simp)
  rw [if_neg h3] at h
  by_cases h4 : ¬(upper r.scope = "DATABASE" ∨ upper r.scope = "SCHEMA" ∨
      upper r.scope = "OBJECT")
  · rw [if_pos h4] at h
    exact absurd h (by simp)
  rw [if_neg h4] at h
  by_cases h5 : (upper r.scope = "SCHEMA" ∨ upper r.scope = "OBJECT") ∧
      r.schema = ""
  · rw [if_pos h5] at h
    exact absurd h (by simp)
  rw [if_neg h5] at h
  by_cases h6 : upper r.scope = "OBJECT" ∧ r.obj = ""
  · rw [if_pos h6] at h
    exact absurd h (by simp)
  rw [if_neg h6] at h
  by_cases h7 : upper r.perm ∉ allowedPerms (upper r.scope)
  · rw [if_pos h7] at h
    exact absurd h (by simp)
  rw [if_neg h7] at h
  injection h with h8
  subst h8
  refine ⟨not_not.mp h3, not_not.mp h4, ?_, ?_, not_not.mp h7, ?_⟩
  · intro hsc
    have hne : ¬ r.schema = "" := fun he => h5 ⟨hsc, he⟩
    show (if r.schema = "" then none else some r.schema) ≠ none
    rw [if_neg hne]
    simp
  · intro hsc
    have hne : ¬ r.obj = "" := fun he => h6 ⟨hsc, he⟩
    show (if r.obj = "" then none else some r.obj) ≠ none
    rw [if_neg hne]
    simp
  · intro hd
    show (if upper r.state = "DENY" ∧ r.wgo then false else r.wgo) = false
    by_cases hw : r.wgo
    · rw [if_pos ⟨hd, hw⟩]
    · rw [if_neg (fun hc => hw hc.2)]
      simpa using hw

theorem loadDbLoop_spec (valid_roles : List String) :
    ∀ (rows : List RawRow) (seen : List Sig),
    (∀ p ∈ loadDbLoop valid_roles rows seen,
      PermInv p ∧ rowSig p ∉ seen) ∧
    (loadDbLoop valid_roles rows seen).Pairwise
      (fun p q => rowSig p ≠ rowSig q) := by
  intro rows
  induction rows with
  | nil =>
      intro seen
      rw [loadDbLoop]
      exact ⟨fun p hp => absurd hp (by simp), List.Pairwise.nil⟩
  | cons r rest ih =>
      intro seen
      rw [loadDbLoop]
      cases hchk : checkRow valid_roles r with
      | none => exact ih seen
      | some p =>
          show (∀ q ∈ (if rowSig p ∈ seen then
              loadDbLoop valid_roles rest seen
            else p :: loadDbLoop valid_roles rest (rowSig p :: seen)),
              PermInv q ∧ rowSig q ∉ seen) ∧
            List.Pairwise (fun a b => rowSig a ≠ rowSig b)
              (if rowSig p ∈ seen then loadDbLoop valid_roles rest seen
               else p :: loadDbLoop valid_roles rest (rowSig p :: seen))
          by_cases hdup : rowSig p ∈ seen
          · rw [if_pos hdup]
            exact ih seen
          · rw [if_neg hdup]
            obtain ⟨hmem, hpw⟩ := ih (rowSig p :: seen)
            refine ⟨?_, ?_⟩
            · intro q hq
              rcases List.mem_cons.mp hq with rfl | hq2
              · exact ⟨checkRow_inv valid_roles r q hchk, hdup⟩
              · obtain ⟨hinv, hns⟩ := hmem q hq2
                exact ⟨hinv, fun hc => hns (List.mem_cons_of_mem _ hc)⟩
            · rw [List.pairwise_cons]
              refine ⟨?_, hpw⟩
              intro q hq
              obtain ⟨-, hns⟩ := hmem q hq
              exact fun hc => hns (hc ▸ List.mem_cons_self _ _)

/-- C6: every row produced by `load_db_permissions_df` has a valid State,
Scope, a schema whenever scoped to SCHEMA/OBJECT, an object whenever
scoped to OBJECT, a permission allowed for its scope, no grant option on a
DENY, and no two produced rows share the same case-insensitive
`(role, state, scope, schema, object, permission, wgo)` signature. -/
theorem C6_load_db_permissions_df (valid_roles : List String)
    (rows : List RawRow) :
    (∀ p ∈ load_db_permissions_df valid_roles rows,
      (p.State = "GRANT" ∨ p.State = "DENY") ∧
      (p.Scope = "DATABASE" ∨ p.Scope = "SCHEMA" ∨ p.Scope = "OBJECT") ∧
      ((p.Scope = "SCHEMA" ∨ p.Scope = "OBJECT") → p.SchemaName ≠ none) ∧
      (p.Scope = "OBJECT" → p.ObjectName ≠ none) ∧
      p.Permission ∈ allowedPerms p.Scope ∧
      (p.State = "DENY" → p.WithGrantOption = false)) ∧
    (load_db_permissions_df valid_roles rows).Pairwise
      (fun p q => rowSig p ≠ rowSig q) := by
  obtain ⟨hmem, hpw⟩ := loadDbLoop_spec valid_roles rows []
  exact ⟨fun p hp => (hmem p hp).1, hpw⟩

theorem C6_load_db_permissions_df_witness :
    load_db_permissions_df ["app_reader"]
      [⟨"app_reader", "grant", "database", "select", "", "", false⟩,
       ⟨"app_reader", "grant", "database", "select", "", "", false⟩] =
      [⟨"app_reader", "GRANT", "DATABASE", none, none, "SELECT", false⟩] ∧
    ∀ p ∈ load_db_permissions_df ["app_reader"]
      [⟨"app_reader", "grant", "database", "select", "", "", false⟩,
       ⟨"app_reader", "grant", "database", "select", "", "", false⟩],
      p.State = "GRANT" ∨ p.State = "DENY" :=
  ⟨rfl,
   fun p hp => ((C6_load_db_permissions_df ["app_reader"]
    [⟨"app_reader", "grant", "database", "select", "", "", false⟩,
     ⟨"app_reader", "grant", "database", "select", "", "", false⟩]).1
      p hp).1⟩

end SqlSecurity


/-! ## `anon.py`: pseudonymisation and restoration of DataFrame columns -/

namespace Anon

/-- A DataFrame cell: `none` models a pandas null (NaN). -/
abbrev Cell := Option String

/-- A DataFrame: named columns of cells, in order. -/
abbrev DataFrame := List (String × List Cell)

/-- A per-column pseudonym mapping (original value → token), in insertion
order, keys unique. -/
abbrev ColMapping := List (String × String)

/-- `Pseudonymizer.mapping`: column name → per-column mapping. -/
abbrev Mapping := List (String × ColMapping)

/-- Python dict lookup over an insertion-ordered association list. -/
def lookupA {A : Type} : List (String × A) → String → Option A
  | [], _ => none
  | p :: rest, k => if p.1 == k then some p.2 else lookupA rest k

/-- `str(value)` as applied by `astype(str)` to a cell: a null prints as
`"nan"`. -/
def cellToStr : Cell → String
  | some s => s
  | none => "nan"

/-- `pd.unique`: unique values in first-occurrence order (`seen` is the
accumulator). -/
def uniqueVals : List String → List String → List String
  | [], _ => []
  | v :: rest, seen =>
      if v ∈ seen then uniqueVals rest seen
      else v :: uniqueVals rest (v :: seen)

/-- `Pseudonymizer._ensure_column_mapping`. -/
def ensure_column_mapping (mapping : Mapping) (c : String) : Mapping :=
  if (lookupA mapping c).isSome then mapping else mapping ++ [(c, [])]

/-- The token-generation loop over a column's unique non-null values. -/
def buildTokens (gen : String → String → String) (c : String) :
    List String → ColMapping → ColMapping
  | [], cm => cm
  | v :: rest, cm =>
      if (lookupA cm v).isSome then buildTokens gen c rest cm
      else buildTokens gen c rest (cm ++ [(v, gen v c)])

/-- Store the (in Python: in-place mutated) per-column mapping back. -/
def setMapping (mapping : Mapping) (c : String) (cm : ColMapping) :
    Mapping :=
  mapping.map (fun p => if p.1 == c then (p.1, cm) else p)

/-- `df[c]` (empty for a missing column; presence is hypothesised). -/
def getCol : DataFrame → String → List Cell
  | [], _ => []
  | p :: rest, c => if p.1 == c then p.2 else getCol rest c

/-- Whether the DataFrame has a column named `c`. -/
def hasCol : DataFrame → String → Bool
  | [], _ => false
  | p :: rest, c => p.1 == c || hasCol rest c

/-- `result[c] = vals`. -/
def setCol (df : DataFrame) (c : String) (vals : List Cell) : DataFrame :=
  df.map (fun p => if p.1 == c then (p.1, vals) else p)

/-- The per-column mapping after the token-generation loop for column
`c`. -/
def builtCm (gen : String → String → String) (df : DataFrame) (c : String)
    (m : Mapping) : ColMapping :=
  buildTokens gen c (uniqueVals ((getCol df c).filterMap id) [])
    ((lookupA (ensure_column_mapping m c) c).getD [])

/-- One iteration of the `for column in pii_columns` loop of
`pseudonymize_dataframe` (reads from the original `df`, writes the
running result and mapping). -/
def pseudoStep (gen : String → String → String) (df : DataFrame)
    (st : DataFrame × Mapping) (c : String) : DataFrame × Mapping :=
  (setCol st.1 c
      ((getCol df c).map
        (fun cell => lookupA (builtCm gen df c st.2) (cellToStr cell))),
   setMapping (ensure_column_mapping st.2 c) c (builtCm gen df c st.2))

/-- `Pseudonymizer.pseudonymize_dataframe` (returns the new DataFrame and
the updated `self.mapping`). -/
def pseudonymize_dataframe (gen : String → String → String)
    (df : DataFrame) (pii : List String) (mapping : Mapping) :
    DataFrame × Mapping :=
  pii.foldl (pseudoStep gen df) (df, mapping)

/-- `{v: k for k, v in col_mapping.items()}[t]`: on duplicate tokens the
later original wins (dict-comprehension overwrite). -/
def revLookup : ColMapping → String → Option String
  | [], _ => none
  | p :: rest, t =>
      match revLookup rest t with
      | some k => some k
      | none => if p.2 == t then some p.1 else none

/-- The `for column in pii_columns` loop of `restore_dataframe`;
`Except.error` models the `ValueError`. -/
def restoreAux (mapping : Mapping) (df : DataFrame) :
    List String → DataFrame → Except String DataFrame
  | [], res => Except.ok res
  | c :: rest, res =>
      match lookupA mapping c with
      | none =>
          Except.error ("No mapping available for column '" ++ c ++ "'")
      | some cm =>
          restoreAux mapping df rest
            (setCol res c
              ((getCol df c).map (fun cell => cell.bind (revLookup cm))))

/-- `Pseudonymizer.restore_dataframe`. -/
def restore_dataframe (df : DataFrame) (pii : List String)
    (mapping : Mapping) : Except String DataFrame :=
  restoreAux mapping df pii df

theorem lookupA_append_right {A : Type} (m : List (String × A)) (k : String)
    (v : A) (h : lookupA m k = none) :
    lookupA (m ++ [(k, v)]) k = some v := by
  induction m with
  | nil =>
      rw [List.nil_append, lookupA, if_pos (by simp)]
  | cons p rest ih =>
      rw [List.cons_append, lookupA]
      rw [lookupA] at h
      by_cases hp : (p.1 == k) = true
      · rw [if_pos hp] at h
        simp at h
      · rw [if_neg hp] at h
        rw [if_neg hp]
        exact ih h

theorem lookupA_append_of_some {A : Type} (m l2 : List (String × A))
    (k : String) (v : A) (h : lookupA m k = some v) :
    lookupA (m ++ l2) k = some v := by
  induction m with
  | nil => simp [lookupA] at h
  | cons p rest ih =>
      rw [List.cons_append, lookupA]
      rw [lookupA] at h
      by_cases hp : (p.1 == k) = true
      · rw [if_pos hp] at h
        rw [if_pos hp]
        exact h
      · rw [if_neg hp] at h
        rw [if_neg hp]
        exact ih h

theorem lookupA_append_ne {A : Type} (m : List (String × A))
    (k k' : String) (v : A) (h : k' ≠ k) :
    lookupA (m ++ [(k, v)]) k' = lookupA m k' := by
  induction m with
  | nil =>
      have hkk : ¬(k == k') = true := by
        simp only [beq_iff_eq]
        exact fun hc => h hc.symm
      simp only [List.nil_append, lookupA]
      rw [if_neg hkk]
  | cons p rest ih =>
      rw [List.cons_append, lookupA, lookupA]
      by_cases hp : (p.1 == k') = true
      · rw [if_pos hp, if_pos hp]
      · rw [if_neg hp, if_neg hp]
        exact ih

theorem lookupA_mem {A : Type} {m : List (String × A)} {k : String} {v : A}
    (h : lookupA m k = some v) : (k, v) ∈ m := by
  induction m with
  | nil => simp [lookupA] at h
  | cons p rest ih =>
      rw [lookupA] at h
      by_cases hp : (p.1 == k) = true
      · rw [if_pos hp] at h
        injection h with h2
        have hk : p.1 = k := by simpa using hp
        have hpe : p = (k, v) := by
          rcases p with ⟨a, b⟩
          simp only at hk h2
          rw [hk, h2]
        rw [← hpe]
        exact List.mem_cons_self p rest
      · rw [if_neg hp] at h
        exact List.mem_cons_of_mem _ (ih h)

theorem lookupA_setMapping_self (m : Mapping) (c : String)
    (cm : ColMapping) (h : (lookupA m c).isSome) :
    lookupA (setMapping m c cm) c = some cm := by
  induction m with
  | nil => simp [lookupA] at h
  | cons p rest ih =>
      rw [setMapping, List.map_cons]
      rw [lookupA] at h
      by_cases hp : (p.1 == c) = true
      · rw [if_pos hp, lookupA, if_pos hp]
      · rw [if_neg hp] at h
        rw [if_neg hp, lookupA, if_neg hp]
        exact ih h

theorem lookupA_setMapping_ne (m : Mapping) (c c' : String)
    (cm : ColMapping) (h : c' ≠ c) :
    lookupA (setMapping m c cm) c' = lookupA m c' := by
  induction m with
  | nil => rfl
  | cons p rest ih =>
      rw [setMapping, List.map_cons]
      by_cases hp : (p.1 == c) = true
      · have hne : ¬(p.1 == c') = true := by
          simp only [beq_iff_eq] at hp ⊢
          rw [hp]
          exact fun hc => h hc.symm
        rw [if_pos hp, lookupA, if_neg hne, lookupA, if_neg hne]
        exact ih
      · rw [if_neg hp, lookupA, lookupA]
        by_cases hpc : (p.1 == c') = true
        · rw [if_pos hpc, if_pos hpc]
        · rw [if_neg hpc, if_neg hpc]
          exact ih

theorem buildTokens_mono (gen : String → String → String) (c : String) :
    ∀ (vs : List String) (cm : ColMapping) (k v : String),
    lookupA cm k = some v →
    lookupA (buildTokens gen c vs cm) k = some v := by
  intro vs
  induction vs with
  | nil =>
      intro cm k v h
      rw [buildTokens]
      exact h
  | cons vv rest ih =>
      intro cm k v h
      rw [buildTokens]
      by_cases hv : (lookupA cm vv).isSome
      · rw [if_pos hv]
        exact ih cm k v h
      · rw [if_neg hv]
        exact ih _ k v (lookupA_append_of_some cm [(vv, gen vv c)] k v h)

theorem buildTokens_complete (gen : String → String → String) (c : String) :
    ∀ (vs : List String) (cm : ColMapping) (v : String), v ∈ vs →
    (lookupA (buildTokens gen c vs cm) v).isSome := by
  intro vs
  induction vs with
  | nil =>
      intro cm v h
      simp at h
  | cons vv rest ih =>
      intro cm v h
      rw [buildTokens]
      by_cases hv : (lookupA cm vv).isSome
      · rw [if_pos hv]
        rcases List.mem_cons.mp h with rfl | hmem
        · obtain ⟨t, ht⟩ := Option.isSome_iff_exists.mp hv
          rw [buildTokens_mono gen c rest cm v t ht]
          rfl
        · exact ih cm v hmem
      · rw [if_neg hv]
        rcases List.mem_cons.mp h with rfl | hmem
        · have hnone : lookupA cm v = none := by
            cases hx : lookupA cm v
            · rfl
            · rw [hx] at hv
              simp at hv
          rw [buildTokens_mono gen c rest _ v (gen v c)
            (lookupA_append_right cm v (gen v c) hnone)]
          rfl
        · exact ih _ v hmem

theorem mem_uniqueVals :
    ∀ (l seen : List String) (v : String), v ∈ l → v ∉ seen →
    v ∈ uniqueVals l seen := by
  intro l
  induction l with
  | nil =>
      intro seen v h
      simp at h
  | cons x rest ih =>
      intro seen v hv hns
      rw [uniqueVals]
      by_cases hx : x ∈ seen
      · rw [if_pos hx]
        rcases List.mem_cons.mp hv with rfl | hmem
        · exact absurd hx hns
        · exact ih seen v hmem hns
      · rw [if_neg hx]
        rcases List.mem_cons.mp hv with rfl | hmem
        · exact List.mem_cons_self _ _
        · by_cases hvx : v = x
          · subst hvx
            exact List.mem_cons_self _ _
          · refine List.mem_cons_of_mem _ (ih _ v hmem ?_)
            intro hc
            rcases List.mem_cons.mp hc with h1 | h2
            · exact hvx h1
            · exact hns h2

theorem ensure_isSome (m : Mapping) (c : String) :
    (lookupA (ensure_column_mapping m c) c).isSome := by
  rw [ensure_column_mapping]
  by_cases h : (lookupA m c).isSome
  · rw [if_pos h]
    exact h
  · rw [if_neg h]
    have hnone : lookupA m c = none := by
      cases hx : lookupA m c
      · rfl
      · rw [hx] at h
        simp at h
    rw [lookupA_append_right m c [] hnone]
    rfl

theorem ensure_lookup_ne (m : Mapping) (c c' : String) (h : c' ≠ c) :
    lookupA (ensure_column_mapping m c) c' = lookupA m c' := by
  rw [ensure_column_mapping]
  by_cases he : (lookupA m c).isSome
  · rw [if_pos he]
  · rw [if_neg he]
    exact lookupA_append_ne m c c' [] h

theorem getCol_setCol_self :
    ∀ (df : DataFrame) (c : String) (vals : List Cell),
    hasCol df c = true → getCol (setCol df c vals) c = vals := by
  intro df
  induction df with
  | nil =>
      intro c vals h
      simp [hasCol] at h
  | cons p rest ih =>
      intro c vals h
      rw [setCol, List.map_cons]
      by_cases hp : (p.1 == c) = true
      · rw [if_pos hp]
        rw [getCol]
        rw [if_pos hp]
      · rw [if_neg hp]
        rw [getCol, if_neg hp]
        rw [hasCol] at h
        rw [Bool.or_eq_true] at h
        rcases h with h1 | h2
        · exact absurd h1 hp
        · exact ih c vals h2

theorem getCol_setCol_ne :
    ∀ (df : DataFrame) (c c' : String) (vals : List Cell), c ≠ c' →
    getCol (setCol df c' vals) c = getCol df c := by
  intro df
  induction df with
  | nil =>
      intro c c' vals h
      rfl
  | cons p rest ih =>
      intro c c' vals h
      rw [setCol, List.map_cons]
      by_cases hp : (p.1 == c') = true
      · have hpc : ¬(p.1 == c) = true := by
          simp only [beq_iff_eq] at hp ⊢
          rw [hp]
          exact fun hc => h hc.symm
        rw [if_pos hp, getCol, if_neg hpc, getCol, if_neg hpc]
        exact ih c c' vals h
      · rw [if_neg hp, getCol, getCol]
        by_cases hpc : (p.1 == c) = true
        · rw [if_pos hpc, if_pos hpc]
        · rw [if_neg hpc, if_neg hpc]
          exact ih c c' vals h

theorem hasCol_setCol :
    ∀ (df : DataFrame) (c c' : String) (vals : List Cell),
    hasCol (setCol df c' vals) c = hasCol df c := by
  intro df
  induction df with
  | nil =>
      intro c c' vals
      rfl
  | cons p rest ih =>
      intro c c' vals
      rw [setCol, List.map_cons]
      by_cases hp : (p.1 == c') = true
      · rw [if_pos hp, hasCol, hasCol]
        show (p.1 == c || hasCol (setCol rest c' vals) c) = _
        rw [ih c c' vals]
      · rw [if_neg hp, hasCol, hasCol]
        show (p.1 == c || hasCol (setCol rest c' vals) c) = _
        rw [ih c c' vals]

theorem revLookup_mem :
    ∀ (cm : ColMapping) (t k : String), revLookup cm t = some k →
    (k, t) ∈ cm := by
  intro cm
  induction cm with
  | nil =>
      intro t k h
      simp [revLookup] at h
  | cons p rest ih =>
      intro t k h
      rw [revLookup] at h
      cases hr : revLookup rest t with
      | some k2 =>
          rw [hr] at h
          injection h with h2
          rw [← h2]
          exact List.mem_cons_of_mem _ (ih t k2 hr)
      | none =>
          rw [hr] at h
          by_cases hp : (p.2 == t) = true
          · rw [if_pos hp] at h
            injection h with h2
            have hpt : p.2 = t := by simpa using hp
            have hpe : p = (k, t) := by
              rcases p with ⟨a, b⟩
              simp only at h2 hpt
              rw [h2, hpt]
            rw [← hpe]
            exact List.mem_cons_self p rest
          · rw [if_neg hp] at h
            simp at h

theorem revLookup_inj :
    ∀ (cm : ColMapping) (k t : String),
    (∀ p1 ∈ cm, ∀ p2 ∈ cm, p1.2 = p2.2 → p1.1 = p2.1) →
    (k, t) ∈ cm → revLookup cm t = some k := by
  intro cm
  induction cm with
  | nil =>
      intro k t _ hmem
      simp at hmem
  | cons p rest ih =>
      intro k t hinj hmem
      rw [revLookup]
      cases hr : revLookup rest t with
      | some k2 =>
          have hmem2 : (k2, t) ∈ p :: rest :=
            List.mem_cons_of_mem _ (revLookup_mem rest t k2 hr)
          have := hinj (k2, t) hmem2 (k, t) hmem rfl
          simp only at this
          rw [this]
      | none =>
          rcases List.mem_cons.mp hmem with hpe | hmem2
          · rw [← hpe]
            rw [if_pos (by simp)]
          · have := revLookup_mem rest t
            have hc := ih k t
              (fun p1 h1 p2 h2 =>
                hinj p1 (List.mem_cons_of_mem _ h1) p2
                  (List.mem_cons_of_mem _ h2)) hmem2
            rw [hc] at hr
            simp at hr

theorem pseudoFold_frame (gen : String → String → String) (df : DataFrame) :
    ∀ (rest : List String) (st : DataFrame × Mapping) (c : String),
    c ∉ rest →
    lookupA (rest.foldl (pseudoStep gen df) st).2 c = lookupA st.2 c ∧
    getCol (rest.foldl (pseudoStep gen df) st).1 c = getCol st.1 c := by
  intro rest
  induction rest with
  | nil =>
      intro st c h
      exact ⟨rfl, rfl⟩
  | cons c2 rest ih =>
      intro st c h
      have hcc : c ≠ c2 := fun hc => h (hc ▸ List.mem_cons_self c2 rest)
      rw [List.foldl_cons]
      have hstep := ih (pseudoStep gen df st c2) c
        (fun hc => h (List.mem_cons_of_mem _ hc))
      refine ⟨?_, ?_⟩
      · rw [hstep.1]
        show lookupA (setMapping (ensure_column_mapping st.2 c2) c2
          (builtCm gen df c2 st.2)) c = _
        rw [lookupA_setMapping_ne _ _ _ _ hcc, ensure_lookup_ne _ _ _ hcc]
      · rw [hstep.2]
        exact getCol_setCol_ne st.1 c c2 _ hcc

theorem pseudoFold_hasCol (gen : String → String → String) (df : DataFrame) :
    ∀ (pii : List String) (st : DataFrame × Mapping) (c : String),
    hasCol (pii.foldl (pseudoStep gen df) st).1 c = hasCol st.1 c := by
  intro pii
  induction pii with
  | nil =>
      intro st c
      rfl
  | cons c2 rest ih =>
      intro st c
      rw [List.foldl_cons, ih (pseudoStep gen df st c2) c]
      exact hasCol_setCol st.1 c c2 _

theorem pseudoFold_spec (gen : String → String → String) (df : DataFrame) :
    ∀ (pii : List String) (st : DataFrame × Mapping), pii.Nodup →
    (∀ c ∈ pii, hasCol st.1 c = true) →
    ∀ c ∈ pii,
    ∃ cm, lookupA (pii.foldl (pseudoStep gen df) st).2 c = some cm ∧
      (∀ s ∈ (getCol df c).filterMap id, (lookupA cm s).isSome) ∧
      getCol (pii.foldl (pseudoStep gen df) st).1 c =
        (getCol df c).map (fun cell => lookupA cm (cellToStr cell)) := by
  intro pii
  induction pii with
  | nil =>
      intro st _ _ c hc
      simp at hc
  | cons c2 rest ih =>
      intro st hnodup hpres c hc
      rw [List.foldl_cons]
      rcases List.mem_cons.mp hc with rfl | hmem
      · -- the processed column itself
        have hnotin : c ∉ rest := (List.nodup_cons.mp hnodup).1
        have hframe := pseudoFold_frame gen df rest
          (pseudoStep gen df st c) c hnotin
        refine ⟨builtCm gen df c st.2, ?_, ?_, ?_⟩
        · rw [hframe.1]
          show lookupA (setMapping (ensure_column_mapping st.2 c) c
            (builtCm gen df c st.2)) c = _
          exact lookupA_setMapping_self _ c _ (ensure_isSome st.2 c)
        · intro s hs
          exact buildTokens_complete gen c _ _ s
            (mem_uniqueVals _ [] s hs (by simp))
        · rw [hframe.2]
          show getCol (setCol st.1 c ((getCol df c).map
            (fun cell => lookupA (builtCm gen df c st.2)
              (cellToStr cell)))) c = _
          exact getCol_setCol_self st.1 c _
            (hpres c (List.mem_cons_self _ _))
      · refine ih (pseudoStep gen df st c2) (List.nodup_cons.mp hnodup).2
          ?_ c hmem
        intro c3 hc3
        show hasCol (setCol st.1 c2 _) c3 = true
        rw [hasCol_setCol]
        exact hpres c3 (List.mem_cons_of_mem _ hc3)

theorem restoreAux_ok (M : Mapping) (dfin : DataFrame) :
    ∀ (pii : List String) (res : DataFrame), pii.Nodup →
    (∀ c ∈ pii, (lookupA M c).isSome) →
    (∀ c ∈ pii, hasCol res c = true) →
    ∃ rdf, restoreAux M dfin pii res = Except.ok rdf ∧
      (∀ c ∈ pii, getCol rdf c =
        (getCol dfin c).map (fun cell => cell.bind
          (revLookup ((lookupA M c).getD [])))) ∧
      (∀ c, c ∉ pii → getCol rdf c = getCol res c) := by
  intro pii
  induction pii with
  | nil =>
      intro res _ _ _
      exact ⟨res, rfl, fun c hc => absurd hc (by simp), fun c _ => rfl⟩
  | cons c2 rest ih =>
      intro res hnodup hsome hpres
      obtain ⟨cm, hcm⟩ := Option.isSome_iff_exists.mp
        (hsome c2 (List.mem_cons_self _ _))
      have hnotin : c2 ∉ rest := (List.nodup_cons.mp hnodup).1
      obtain ⟨rdf, hr, hspec, hframe⟩ := ih
        (setCol res c2 ((getCol dfin c2).map
          (fun cell => cell.bind (revLookup cm))))
        (List.nodup_cons.mp hnodup).2
        (fun c hc => hsome c (List.mem_cons_of_mem _ hc))
        (fun c hc => by
          rw [hasCol_setCol]
          exact hpres c (List.mem_cons_of_mem _ hc))
      refine ⟨rdf, ?_, ?_, ?_⟩
      · rw [restoreAux, hcm]
        exact hr
      · intro c hc
        rcases List.mem_cons.mp hc with rfl | hmem
        · rw [hframe c hnotin, hcm]
          exact getCol_setCol_self res c _
            (hpres c (List.mem_cons_self _ _))
        · exact hspec c hmem
      · intro c hc
        have hc2 : c ≠ c2 := fun he => hc (he ▸ List.mem_cons_self c2 rest)
        rw [hframe c (fun hm => hc (List.mem_cons_of_mem _ hm))]
        exact getCol_setCol_ne res c c2 _ hc2

theorem restoreAux_error (M : Mapping) (dfin : DataFrame) :
    ∀ (pii : List String) (res : DataFrame),
    (∃ c ∈ pii, lookupA M c = none) →
    ∃ e, restoreAux M dfin pii res = Except.error e := by
  intro pii
  induction pii with
  | nil =>
      intro res h
      simp at h
  | cons c2 rest ih =>
      intro res h
      cases h0 : lookupA M c2 with
      | none =>
          refine ⟨"No mapping available for column '" ++ c2 ++ "'", ?_⟩
          rw [restoreAux, h0]
      | some cm =>
          obtain ⟨c, hc, hnone⟩ := h
          rcases List.mem_cons.mp hc with rfl | hmem
          · rw [h0] at hnone
            exact absurd hnone (by simp)
          · obtain ⟨e, he⟩ := ih
              (setCol res c2 ((getCol dfin c2).map
                (fun cell => cell.bind (revLookup cm)))) ⟨c, hmem, hnone⟩
            refine ⟨e, ?_⟩
            rw [restoreAux, h0]
            exact he

/-- C4: with all PII cells non-null and the per-column token mapping built
by `pseudonymize_dataframe` injective, `restore_dataframe` applied with
that mapping to the pseudonymized DataFrame restores every PII column to
the original values read as strings; and `restore_dataframe` raises
`ValueError` whenever some requested column has no mapping entry. -/
theorem C4_pseudonymize_restore (gen : String → String → String)
    (df : DataFrame) (pii : List String) (hnodup : pii.Nodup)
    (hpresent : ∀ c ∈ pii, hasCol df c = true)
    (hnonnull : ∀ c ∈ pii, ∀ v ∈ getCol df c, v.isSome)
    (hinj : ∀ c ∈ pii,
      ∀ p1 ∈ (lookupA (pseudonymize_dataframe gen df pii []).2 c).getD [],
      ∀ p2 ∈ (lookupA (pseudonymize_dataframe gen df pii []).2 c).getD [],
      p1.2 = p2.2 → p1.1 = p2.1) :
    (∃ rdf,
      restore_dataframe (pseudonymize_dataframe gen df pii []).1 pii
        (pseudonymize_dataframe gen df pii []).2 = Except.ok rdf ∧
      ∀ c ∈ pii, getCol rdf c =
        (getCol df c).map (fun cell => some (cellToStr cell))) ∧
    (∀ (df2 : DataFrame) (pii2 : List String) (m2 : Mapping),
      (∃ c ∈ pii2, lookupA m2 c = none) →
      ∃ e, restore_dataframe df2 pii2 m2 = Except.error e) := by
  constructor
  · have hspec := pseudoFold_spec gen df pii (df, []) hnodup hpresent
    have hsome : ∀ c ∈ pii,
        (lookupA (pseudonymize_dataframe gen df pii []).2 c).isSome := by
      intro c hc
      obtain ⟨cm, hcm, -, -⟩ := hspec c hc
      rw [pseudonymize_dataframe, hcm]
      rfl
    have hpres2 : ∀ c ∈ pii,
        hasCol (pseudonymize_dataframe gen df pii []).1 c = true := by
      intro c hc
      rw [pseudonymize_dataframe, pseudoFold_hasCol]
      exact hpresent c hc
    obtain ⟨rdf, hr, hcols, -⟩ := restoreAux_ok
      (pseudonymize_dataframe gen df pii []).2
      (pseudonymize_dataframe gen df pii []).1 pii
      (pseudonymize_dataframe gen df pii []).1 hnodup hsome hpres2
    refine ⟨rdf, hr, ?_⟩
    intro c hc
    obtain ⟨cm, hcm, hcomp, hcol⟩ := hspec c hc
    have hcm2 : lookupA (pseudonymize_dataframe gen df pii []).2 c =
        some cm := by
      rw [pseudonymize_dataframe]
      exact hcm
    have hcol2 : getCol (pseudonymize_dataframe gen df pii []).1 c =
        (getCol df c).map (fun cell => lookupA cm (cellToStr cell)) := by
      rw [pseudonymize_dataframe]
      exact hcol
    rw [hcols c hc, hcm2, hcol2, List.map_map]
    apply List.map_congr_left
    intro cell hcell
    obtain ⟨s0, rfl⟩ := Option.isSome_iff_exists.mp (hnonnull c hc cell hcell)
    have hs0 : s0 ∈ (getCol df c).filterMap id := by
      rw [List.mem_filterMap]
      exact ⟨some s0, hcell, rfl⟩
    obtain ⟨t, ht⟩ := Option.isSome_iff_exists.mp (hcomp s0 hs0)
    show ((lookupA cm (cellToStr (some s0))).bind
      (revLookup ((some cm).getD []))) = some (cellToStr (some s0))
    rw [show cellToStr (some s0) = s0 from rfl, ht]
    show revLookup cm t = some s0
    have hinj2 := hinj c hc
    rw [hcm2] at hinj2
    exact revLookup_inj cm s0 t hinj2 (lookupA_mem ht)
  · intro df2 pii2 m2 hex
    exact restoreAux_error m2 df2 pii2 df2 hex

theorem C4_pseudonymize_restore_witness :
    ∃ rdf,
      restore_dataframe
        (pseudonymize_dataframe (fun v _ => String.append v "!")
          [("name", [some "alice", some "bob"])] ["name"] []).1 ["name"]
        (pseudonymize_dataframe (fun v _ => String.append v "!")
          [("name", [some "alice", some "bob"])] ["name"] []).2 =
        Except.ok rdf ∧
      ∀ c ∈ ["name"], getCol rdf c =
        (getCol [("name", [some "alice", some "bob"])] c).map
          (fun cell => some (cellToStr cell)) :=
  (C4_pseudonymize_restore (fun v _ => String.append v "!")
    [("name", [some "alice", some "bob"])] ["name"]
    (by decide) (by decide) (by decide) (by decide)).1

end Anon


/-! ## `csv2xlsx.py`: early argument/empty-CSV errors and reservoir
sampling -/

namespace Csv2Xlsx

def EXCEL_MAX_ROWS : ℤ := 1048576

/-- `write_xlsx_streaming` up to the point where actual conversion work
begins: argument validation, reading the header row, and the chunk-size
check; `Except.ok` carries the header (if any) and the remaining rows.
`Except.error` models `ValueError`. -/
def write_xlsx_streaming_prelude (rows : List (List String))
    (has_header split_sheets : Bool) (max_rows_per_sheet chunk_rows : ℤ) :
    Except String (Option (List String) × List (List String)) :=
  if max_rows_per_sheet > EXCEL_MAX_ROWS then
    Except.error "--max-rows-per-sheet must be <= 1048576"
  else if chunk_rows ≠ 0 ∧ chunk_rows > 0 ∧ split_sheets = true then
    Except.error "--chunk-rows cannot be combined with --split-sheets"
  else if has_header then
    match rows with
    | [] => Except.error "CSV appears to be empty."
    | h :: rest =>
        if chunk_rows ≠ 0 ∧ chunk_rows > 0 ∧
            chunk_rows > EXCEL_MAX_ROWS - 1 then
          Except.error "--chunk-rows too large"
        else Except.ok (some h, rest)
  else
    if chunk_rows ≠ 0 ∧ chunk_rows > 0 ∧ chunk_rows > EXCEL_MAX_ROWS then
      Except.error "--chunk-rows too large"
    else Except.ok (none, rows)

/-- C7: `write_xlsx_streaming` rejects `max_rows_per_sheet > 1048576`, and
`chunk_rows > 0` combined with `split_sheets`, before looking at any input
row (the errors hold for every row stream); and with a header expected and
no input rows it raises `ValueError "CSV appears to be empty."`. -/
theorem C7_write_xlsx_early_errors (rows : List (List String))
    (has_header split_sheets : Bool) (max_rows_per_sheet chunk_rows : ℤ) :
    (max_rows_per_sheet > 1048576 →
      write_xlsx_streaming_prelude rows has_header split_sheets
          max_rows_per_sheet chunk_rows =
        Except.error "--max-rows-per-sheet must be <= 1048576") ∧
    (max_rows_per_sheet ≤ 1048576 → chunk_rows > 0 → split_sheets = true →
      write_xlsx_streaming_prelude rows has_header split_sheets
          max_rows_per_sheet chunk_rows =
        Except.error "--chunk-rows cannot be combined with --split-sheets") ∧
    (max_rows_per_sheet ≤ 1048576 →
      ¬(chunk_rows > 0 ∧ split_sheets = true) → has_header = true →
      rows = [] →
      write_xlsx_streaming_prelude rows has_header split_sheets
          max_rows_per_sheet chunk_rows =
        Except.error "CSV appears to be empty.") := by
  refine ⟨?_, ?_, ?_⟩
  · intro h
    rw [write_xlsx_streaming_prelude.eq_def, if_pos (by
      rw [EXCEL_MAX_ROWS]
      exact h)]
  · intro h1 h2 h3
    rw [write_xlsx_streaming_prelude.eq_def,
      if_neg (by rw [EXCEL_MAX_ROWS]; omega),
      if_pos ⟨by omega, h2, h3⟩]
  · intro h1 h2 h3 h4
    subst h3
    subst h4
    rw [write_xlsx_streaming_prelude.eq_def,
      if_neg (by rw [EXCEL_MAX_ROWS]; omega),
      if_neg (by
        rintro ⟨-, hpos, hsplit⟩
        exact h2 ⟨hpos, hsplit⟩),
      if_pos rfl]

theorem C7_write_xlsx_early_errors_witness :
    write_xlsx_streaming_prelude [[("x" : String)]] false false 2000000 0 =
      Except.error "--max-rows-per-sheet must be <= 1048576" ∧
    write_xlsx_streaming_prelude [[("x" : String)]] false true 100 5 =
      Except.error "--chunk-rows cannot be combined with --split-sheets" ∧
    write_xlsx_streaming_prelude ([] : List (List String)) true false 100 0 =
      Except.error "CSV appears to be empty." :=
  ⟨(C7_write_xlsx_early_errors [[("x" : String)]] false false 2000000
      0).1 (by norm_num),
   (C7_write_xlsx_early_errors [[("x" : String)]] false true 100 5).2.1
      (by norm_num) (by norm_num) rfl,
   (C7_write_xlsx_early_errors ([] : List (List String)) true false 100
      0).2.2 (by norm_num) (by simp) rfl rfl⟩

/-- The `for row in reader` loop of `reservoir_sample_rows`; `rng s` is
the oracle for `rng.randrange(s)`. -/
def reservoir_loop (rng : ℕ → ℕ) (sample_n : ℕ) :
    List (List String) → List (List String) → ℕ → List (List String)
  | [], reservoir, _ => reservoir
  | row :: rest, reservoir, seen =>
      if reservoir.length < sample_n then
        reservoir_loop rng sample_n rest (reservoir ++ [row]) (seen + 1)
      else if rng (seen + 1) < sample_n then
        reservoir_loop rng sample_n rest
          (reservoir.set (rng (seen + 1)) row) (seen + 1)
      else
        reservoir_loop rng sample_n rest reservoir (seen + 1)

/-- `reservoir_sample_rows` (the unused `header` argument is kept from the
source signature). -/
def reservoir_sample_rows (rng : ℕ → ℕ) (reader : List (List String))
    (sample_n : ℕ) (header : Option (List String)) : List (List String) :=
  reservoir_loop rng sample_n reader [] 0

theorem reservoir_loop_spec (rng : ℕ → ℕ) (n : ℕ) :
    ∀ (input res : List (List String)) (seen : ℕ),
    res.length = min n seen →
    (reservoir_loop rng n input res seen).length =
      min n (seen + input.length) ∧
    ∀ r ∈ reservoir_loop rng n input res seen, r ∈ res ∨ r ∈ input := by
  intro input
  induction input with
  | nil =>
      intro res seen hres
      rw [reservoir_loop]
      exact ⟨by simpa using hres, fun r hr => Or.inl hr⟩
  | cons row rest ih =>
      intro res seen hres
      rw [reservoir_loop]
      by_cases hlt : res.length < n
      · rw [if_pos hlt]
        have hlen : (res ++ [row]).length = min n (seen + 1) := by
          rw [List.length_append]
          simp only [List.length_singleton]
          omega
        obtain ⟨h1, h2⟩ := ih (res ++ [row]) (seen + 1) hlen
        refine ⟨by rw [h1, List.length_cons]; omega, ?_⟩
        intro r hr
        rcases h2 r hr with hmem | hmem
        · rcases List.mem_append.mp hmem with hm | hm
          · exact Or.inl hm
          · simp at hm
            exact Or.inr (hm ▸ List.mem_cons_self _ _)
        · exact Or.inr (List.mem_cons_of_mem _ hmem)
      · rw [if_neg hlt]
        by_cases hj : rng (seen + 1) < n
        · rw [if_pos hj]
          have hlen : (res.set (rng (seen + 1)) row).length =
              min n (seen + 1) := by
            rw [List.length_set]
            omega
          obtain ⟨h1, h2⟩ := ih (res.set (rng (seen + 1)) row) (seen + 1)
            hlen
          refine ⟨by rw [h1, List.length_cons]; omega, ?_⟩
          intro r hr
          rcases h2 r hr with hmem | hmem
          · rcases List.mem_or_eq_of_mem_set hmem with hm | hm
            · exact Or.inl hm
            · exact Or.inr (hm ▸ List.mem_cons_self _ _)
          · exact Or.inr (List.mem_cons_of_mem _ hmem)
        · rw [if_neg hj]
          obtain ⟨h1, h2⟩ := ih res (seen + 1) (by omega)
          refine ⟨by rw [h1, List.length_cons]; omega, ?_⟩
          intro r hr
          rcases h2 r hr with hmem | hmem
          · exact Or.inl hmem
          · exact Or.inr (List.mem_cons_of_mem _ hmem)

/-- C10: on a finite row stream and positive sample size, reservoir
sampling returns `min n (number of rows)` rows, all of them rows of the
input stream. -/
theorem C10_reservoir_sample (rng : ℕ → ℕ) (reader : List (List String))
    (n : ℕ) (header : Option (List String)) (hn : 0 < n) :
    (reservoir_sample_rows rng reader n header).length =
      min n reader.length ∧
    ∀ r ∈ reservoir_sample_rows rng reader n header, r ∈ reader := by
  obtain ⟨h1, h2⟩ := reservoir_loop_spec rng n reader [] 0 (by simp)
  refine ⟨by simpa using h1, ?_⟩
  intro r hr
  rcases h2 r hr with hmem | hmem
  · simp at hmem
  · exact hmem

theorem C10_reservoir_sample_witness :
    (reservoir_sample_rows (fun _ => 0) [["a"], ["b"], ["c"]] 2
      none).length = min 2 3 ∧
    ∀ r ∈ reservoir_sample_rows (fun _ => 0) [["a"], ["b"], ["c"]] 2 none,
      r ∈ [[("a" : String)], ["b"], ["c"]] := by
  have h := C10_reservoir_sample (fun _ => 0) [["a"], ["b"], ["c"]] 2 none
    (by norm_num)
  exact ⟨by rw [h.1]; rfl, h.2⟩

end Csv2Xlsx
